import Mathlib

/-!
Verification of the source-code graph pipeline: the regex-based Rust parser
(rust-parser-simple), the regex-based Python parser (python-parser), and the
view projections of the analysis route (convertToHierarchical,
filterModuleDependencies, filterCallGraph) together with convertToGraphData.

The JavaScript string primitives (indexOf, lastIndexOf, substring, split,
trim, regex scanning with the g and m flags) are embedded as executable
functions on List Char.  Each regex of the source is embedded as a
deterministic matcher whose backtracking behaviour was checked against the
JS semantics case by case.  File-system reads are modelled by passing the
discovery result (a list of file paths paired with Option String read
results, none meaning an unreadable file) to the project-level functions.
-/

namespace VisCode

/-- The left curly brace character, written via its code point. -/
def lbrace : Char := Char.ofNat 123

/-- The right curly brace character, written via its code point. -/
def rbrace : Char := Char.ofNat 125

/-- JS regex \s on the ASCII range (space, tab, newline, carriage return,
vertical tab, form feed). -/
def jsSpace (c : Char) : Bool :=
  c == ' ' || c == '\t' || c == '\n' || c == '\r' || c == Char.ofNat 11 || c == Char.ofNat 12

/-- First character of a JS identifier: [a-zA-Z_]. -/
def identStart (c : Char) : Bool :=
  ('a' ≤ c && c ≤ 'z') || ('A' ≤ c && c ≤ 'Z') || c == '_'

/-- Later character of a JS identifier: [a-zA-Z0-9_]. -/
def identChar (c : Char) : Bool :=
  identStart c || ('0' ≤ c && c ≤ '9')

/-- Greedy maximal munch: the longest head run satisfying p, and the rest. -/
def munch (p : Char → Bool) : List Char → List Char × List Char
  | [] => ([], [])
  | c :: t =>
    if p c then
      let r := munch p t
      (c :: r.1, r.2)
    else ([], c :: t)

/-- Expect a literal, returning the rest of the input on success. -/
def expectStr (lit : List Char) (s : List Char) : Option (List Char) :=
  if lit.isPrefixOf s then some (s.drop lit.length) else none

/-- Parse one identifier ([a-zA-Z_][a-zA-Z0-9_]*), returning it and the rest. -/
def ident : List Char → Option (List Char × List Char)
  | [] => none
  | c :: t =>
    if identStart c then
      let r := munch identChar t
      some (c :: r.1, r.2)
    else none

/-- Leftmost index at which pat occurs in s (prefix match semantics). -/
def findIdx (pat : List Char) : List Char → Option Nat
  | [] => if pat.isEmpty then some 0 else none
  | c :: t =>
    if pat.isPrefixOf (c :: t) then some 0
    else (findIdx pat t).map (· + 1)

/-- Rightmost index at which pat occurs in s. -/
def findLast (pat : List Char) : List Char → Option Nat
  | [] => if pat.isEmpty then some 0 else none
  | c :: t =>
    match findLast pat t with
    | some k => some (k + 1)
    | none => if pat.isPrefixOf (c :: t) then some 0 else none

/-- JS String.indexOf(pat, from) with -1 for no match; from is clamped below at 0. -/
def jsIndexOf (s pat : List Char) (start : Int) : Int :=
  let f := start.toNat
  match findIdx pat (s.drop f) with
  | some k => (k + f : Nat)
  | none => -1

/-- JS String.lastIndexOf(pat): index of the last occurrence or -1. -/
def jsLastIndexOf (s pat : List Char) : Int :=
  match findLast pat s with
  | some k => (k : Nat)
  | none => -1

/-- JS String.lastIndexOf(c, bound) for a single character: the largest index
at or below bound holding c, or -1; a negative bound is treated as 0. -/
def jsLastIndexOfCharLe (s : List Char) (c : Char) (bound : Int) : Int :=
  match findLast [c] (s.take (bound.toNat + 1)) with
  | some k => (k : Nat)
  | none => -1

/-- JS String.substring(a, b): both bounds clamped into [0, length] and swapped
if out of order. -/
def jsSubstring (s : List Char) (a b : Int) : List Char :=
  let n := s.length
  let a2 := min a.toNat n
  let b2 := min b.toNat n
  let lo := min a2 b2
  let hi := max a2 b2
  (s.drop lo).take (hi - lo)

/-- JS String.substring(a) to the end of the string. -/
def jsSubstringFrom (s : List Char) (a : Int) : List Char :=
  s.drop (min a.toNat s.length)

/-- JS String.includes(pat). -/
def containsStr (s pat : List Char) : Bool :=
  (findIdx pat s).isSome

/-- JS String.trim on the modelled whitespace class. -/
def jsTrim (s : List Char) : List Char :=
  ((munch jsSpace ((munch jsSpace s.reverse).2.reverse)).2)

/-- JS String.trimEnd. -/
def jsTrimEnd (s : List Char) : List Char :=
  (munch jsSpace s.reverse).2.reverse

/-- JS String.startsWith. -/
def startsStr (s pat : List Char) : Bool :=
  pat.isPrefixOf s

/-- JS String.split(sep) for a single-character separator. -/
def splitChar (sep : Char) : List Char → List (List Char)
  | [] => [[]]
  | c :: t =>
    if c = sep then [] :: splitChar sep t
    else
      match splitChar sep t with
      | [] => [[c]]
      | h :: r => (c :: h) :: r

/-- JS String.split with the two-character separator consisting of two colons,
leftmost-first non-overlapping, as used for Rust paths. -/
def splitSep : List Char → List (List Char)
  | [] => [[]]
  | ':' :: ':' :: t => [] :: splitSep t
  | c :: t =>
    match splitSep t with
    | [] => [[c]]
    | h :: r => (c :: h) :: r

/-- Join with the two-colon separator (inverse of splitSep on well-formed parts). -/
def joinSep : List (List Char) → List Char
  | [] => []
  | [s] => s
  | s :: t => s ++ ':' :: ':' :: joinSep t

/-- Whether the two-colon separator occurs anywhere in the string. -/
def hasSep : List Char → Bool
  | [] => false
  | [_] => false
  | a :: b :: t => (a == ':' && b == ':') || hasSep (b :: t)

/-- JS String.replace(pat, rep) for plain-string pat: first occurrence only. -/
def replaceFirst (s pat rep : List Char) : List Char :=
  match findIdx pat s with
  | some i => s.take i ++ rep ++ s.drop (i + pat.length)
  | none => s

/-- JS String.replaceAll for a single-character pattern mapped to a string
(used for the global-flag regex replaces over path separators). -/
def replaceAllChar (s : List Char) (c : Char) (rep : List Char) : List Char :=
  s.flatMap (fun x => if x = c then rep else [x])

/-- Strip a literal suffix if present (anchored replace of the empty string). -/
def stripSuffix (s pat : List Char) : List Char :=
  if pat.isSuffixOf s then s.take (s.length - pat.length) else s

/-- Strip a literal prefix if present. -/
def stripPre (s pat : List Char) : List Char :=
  if pat.isPrefixOf s then s.drop pat.length else s

/-- The part of a path after the last slash (Node path.basename for our inputs). -/
def baseName (s : List Char) : List Char :=
  match findLast ['/'] s with
  | some k => s.drop (k + 1)
  | none => s

/-- Truthiness of an optional JS string: undefined and the empty string are falsy. -/
def jsTruthy : Option String → Bool
  | none => false
  | some s => !s.isEmpty

/-- Global-flag regex scanning: repeatedly try the matcher at successive
positions, continuing after each match (JS lastIndex semantics; all embedded
patterns match at least one character).  The structural fuel equals the
remaining input length throughout, so the zero-fuel case coincides with the
empty-input exit and the function is exactly the unbounded loop.  Yields
(index, length, payload) per match. -/
def scanPAux (m : List Char → Option (α × List Char)) :
    Nat → List Char → Nat → List (Nat × Nat × α)
  | 0, _, _ => []
  | _ + 1, [], _ => []
  | fuel + 1, c :: t, p =>
    match m (c :: t) with
    | some (a, rest) =>
      if rest.length < (c :: t).length then
        (p, (c :: t).length - rest.length, a) ::
          scanPAux m fuel rest (p + ((c :: t).length - rest.length))
      else (p, (c :: t).length - rest.length, a) :: scanPAux m fuel t (p + 1)
    | none => scanPAux m fuel t (p + 1)

/-- Scan the whole input from a starting index. -/
def scanP (m : List Char → Option (α × List Char)) (s : List Char) (p : Nat) :
    List (Nat × Nat × α) :=
  scanPAux m s.length s p

/-- Scanning for a multiline-anchored regex (leading caret with the m flag):
the matcher is tried only at position 0 and right after a newline.  Fuel as
in scanPAux. -/
def scanAAux (m : List Char → Option (α × List Char)) :
    Nat → List Char → Nat → Bool → List (Nat × Nat × α)
  | 0, _, _, _ => []
  | _ + 1, [], _, _ => []
  | fuel + 1, c :: t, p, anch =>
    if anch then
      match m (c :: t) with
      | some (a, rest) =>
        if rest.length < (c :: t).length then
          (p, (c :: t).length - rest.length, a) ::
            scanAAux m fuel rest (p + ((c :: t).length - rest.length))
              (((c :: t).take ((c :: t).length - rest.length)).getLast? == some '\n')
        else (p, (c :: t).length - rest.length, a) :: scanAAux m fuel t (p + 1) (c == '\n')
      | none => scanAAux m fuel t (p + 1) (c == '\n')
    else scanAAux m fuel t (p + 1) (c == '\n')

/-- Scan the whole input with the line-start anchor initially satisfied. -/
def scanA (m : List Char → Option (α × List Char)) (s : List Char) (p : Nat)
    (anch : Bool) : List (Nat × Nat × α) :=
  scanAAux m s.length s p anch

/-- Optional generic parameter group: <[^>]*> consumed when complete, else
nothing (a failed attempt backtracks to the absent branch). -/
def genericOpt (s : List Char) : List Char :=
  match s with
  | '<' :: t =>
    let r := munch (fun c => c != '>') t
    match r.2 with
    | '>' :: r2 => r2
    | _ => s
  | _ => s

/-- Matcher for the Rust function regex
fn\s+([a-zA-Z_][a-zA-Z0-9_]*)\s*(?:<[^>]*>)?\s*\(([^)]*)\)(?:\s*->\s*([^\x7b]*))?
returning the captured name. -/
def matchFn (s0 : List Char) : Option (List Char × List Char) :=
  match expectStr ['f', 'n'] s0 with
  | none => none
  | some s1 =>
    let r1 := munch jsSpace s1
    if r1.1.isEmpty then none else
    match ident r1.2 with
    | none => none
    | some (name, s3) =>
      let s4 := (munch jsSpace s3).2
      let s5 := genericOpt s4
      let s6 := (munch jsSpace s5).2
      match s6 with
      | '(' :: s7 =>
        match (munch (fun c => c != ')') s7).2 with
        | ')' :: s9 =>
          let sA := (munch jsSpace s9).2
          match expectStr ['-', '>'] sA with
          | some sB =>
            let sC := (munch jsSpace sB).2
            some (name, (munch (fun c => c != lbrace) sC).2)
          | none => some (name, s9)
        | _ => none
      | _ => none

/-- Matcher for the struct/enum/trait regexes
kw\s+([a-zA-Z_][a-zA-Z0-9_]*)(?:<[^>]*>)? returning the captured name. -/
def matchKwType (kw : List Char) (s0 : List Char) : Option (List Char × List Char) :=
  match expectStr kw s0 with
  | none => none
  | some s1 =>
    let r1 := munch jsSpace s1
    if r1.1.isEmpty then none else
    match ident r1.2 with
    | none => none
    | some (name, s3) => some (name, genericOpt s3)

/-- Matcher for the Rust impl regex
impl(?:<[^>]*>)?\s+(?:([a-zA-Z_]\w*)(?:<[^>]*>)?\s+for\s+)?([a-zA-Z_]\w*)(?:<[^>]*>)?
returning (optional trait name, type name). -/
def matchImpl (s0 : List Char) : Option ((Option (List Char) × List Char) × List Char) :=
  match expectStr ['i', 'm', 'p', 'l'] s0 with
  | none => none
  | some s1 =>
    let s2 := genericOpt s1
    let r2 := munch jsSpace s2
    if r2.1.isEmpty then none else
    match ident r2.2 with
    | none => none
    | some (a, s3) =>
      let s4 := genericOpt s3
      let branch : Option ((Option (List Char) × List Char) × List Char) :=
        let r3 := munch jsSpace s4
        if r3.1.isEmpty then none else
        match expectStr ['f', 'o', 'r'] r3.2 with
        | some s5 =>
          let r4 := munch jsSpace s5
          if r4.1.isEmpty then none else
          match ident r4.2 with
          | some (b, s6) => some ((some a, b), genericOpt s6)
          | none => none
        | none => none
      match branch with
      | some r => some r
      | none => some ((none, a), s4)

/-- Matcher for the Rust module regex mod\s+([a-zA-Z_]\w*). -/
def matchMod (s0 : List Char) : Option (List Char × List Char) :=
  match expectStr ['m', 'o', 'd'] s0 with
  | none => none
  | some s1 =>
    let r1 := munch jsSpace s1
    if r1.1.isEmpty then none else
    match ident r1.2 with
    | none => none
    | some (name, s3) => some (name, s3)

/-- Matcher for the Rust use regex use\s+([^;]+); with the JS backtracking
behaviour when the first non-space character is a semicolon (the greedy
space run gives back its last space to the capture). -/
def matchUse (s0 : List Char) : Option (List Char × List Char) :=
  match expectStr ['u', 's', 'e'] s0 with
  | none => none
  | some s1 =>
    let r1 := munch jsSpace s1
    if r1.1.isEmpty then none else
    let r2 := munch (fun c => c != ';') r1.2
    if r2.1.isEmpty then
      match r1.2 with
      | ';' :: rest2 =>
        if 2 ≤ r1.1.length then some ([r1.1.getLast!], rest2) else none
      | _ => none
    else
      match r2.2 with
      | ';' :: rest2 => some (r2.1, rest2)
      | _ => none

/-- Matcher for the call regex ([a-zA-Z_][a-zA-Z0-9_]*)\s*\( used inside
function bodies. -/
def matchCall (s0 : List Char) : Option (List Char × List Char) :=
  match ident s0 with
  | none => none
  | some (name, s1) =>
    match (munch jsSpace s1).2 with
    | '(' :: s2 => some (name, s2)
    | _ => none

/-- RustNode of rust-types: optional fields are Option-valued. -/
structure RustNode where
  id : String
  type : String
  name : String
  path : String
  file : String
  signature : Option String := none
  visibility : Option String := none
deriving DecidableEq, Inhabited

/-- RustDependency of rust-types. -/
structure RustDep where
  source : String
  target : String
  type : String
  weight : Option Nat := none
deriving DecidableEq, Inhabited

/-- RustProject of rust-types. -/
structure RustProject where
  name : String
  root : String
  nodes : List RustNode
  dependencies : List RustDep
deriving DecidableEq

/-- The id helper of the parsers: type, colon, path, colon, name. -/
def generateId (type name path : String) : String :=
  type ++ ":" ++ path ++ ":" ++ name

/-- Keywords skipped by the Rust call extraction. -/
def rustCallSkip : List (List Char) := ["if".data, "while".data, "for".data, "match".data]

/-- Visibility of a Rust declaration: the five characters before the match are
checked for the substring consisting of pub and a space. -/
def rustVisibility (code : List Char) (idx : Nat) : String :=
  if containsStr (jsSubstring code (max 0 ((idx : Int) - 5)) idx) ['p', 'u', 'b', ' ']
  then "public" else "private"

/-- Call dependencies extracted from one function match of parseRustFile:
the body window runs from the match index to the first closing brace. -/
def rustFnCalls (code : List Char) (moduleName : String) (idx : Nat) (name : List Char) :
    List RustDep :=
  let endIndex := jsIndexOf code [rbrace] idx
  if (idx : Int) < endIndex then
    let body := jsSubstring code idx endIndex
    (scanP matchCall body 0).filterMap (fun m =>
      if rustCallSkip.contains m.2.2 then none
      else some { source := generateId "function" ⟨name⟩ moduleName,
                  target := generateId "function" ⟨m.2.2⟩ "",
                  type := "calls" })
  else []

/-- parseRustFile of rust-parser-simple: the regex-based per-file extractor.
The readFileSync try/catch is modelled by the Option content (none is an
unreadable file and yields the empty result). -/
def parseRustFile (filePath : String) (content : Option String) :
    List RustNode × List RustDep :=
  match content with
  | none => ([], [])
  | some codeStr =>
    let code := codeStr.data
    let moduleName : String := ⟨stripSuffix (baseName filePath.data) ".rs".data⟩
    let fnMatches := scanP matchFn code 0
    let fnNodes : List RustNode := fnMatches.map (fun m =>
      { id := generateId "function" ⟨m.2.2⟩ moduleName,
        type := "function", name := ⟨m.2.2⟩, path := moduleName, file := filePath,
        signature := some ⟨(code.drop m.1).take m.2.1⟩,
        visibility := some (rustVisibility code m.1) })
    let fnDeps : List RustDep :=
      fnMatches.flatMap (fun m => rustFnCalls code moduleName m.1 m.2.2)
    let structNodes : List RustNode := (scanP (matchKwType "struct".data) code 0).map (fun m =>
      { id := generateId "struct" ⟨m.2.2⟩ moduleName,
        type := "struct", name := ⟨m.2.2⟩, path := moduleName, file := filePath,
        signature := some ⟨(code.drop m.1).take m.2.1⟩,
        visibility := some (rustVisibility code m.1) })
    let enumNodes : List RustNode := (scanP (matchKwType "enum".data) code 0).map (fun m =>
      { id := generateId "enum" ⟨m.2.2⟩ moduleName,
        type := "enum", name := ⟨m.2.2⟩, path := moduleName, file := filePath,
        signature := some ⟨(code.drop m.1).take m.2.1⟩,
        visibility := some (rustVisibility code m.1) })
    let traitNodes : List RustNode := (scanP (matchKwType "trait".data) code 0).map (fun m =>
      { id := generateId "trait" ⟨m.2.2⟩ moduleName,
        type := "trait", name := ⟨m.2.2⟩, path := moduleName, file := filePath,
        signature := some ⟨(code.drop m.1).take m.2.1⟩,
        visibility := some (rustVisibility code m.1) })
    let implMatches := scanP matchImpl code 0
    let implNodes : List RustNode := implMatches.map (fun m =>
      let nm : String := match m.2.2.1 with
        | some tr => "impl " ++ (⟨tr⟩ : String) ++ " for " ++ (⟨m.2.2.2⟩ : String)
        | none => "impl " ++ (⟨m.2.2.2⟩ : String)
      { id := generateId "impl" nm moduleName,
        type := "impl", name := nm, path := moduleName, file := filePath })
    let implDeps : List RustDep := implMatches.filterMap (fun m =>
      match m.2.2.1 with
      | some tr => some { source := generateId "struct" ⟨m.2.2.2⟩ moduleName,
                          target := generateId "trait" ⟨tr⟩ moduleName,
                          type := "implements" }
      | none => none)
    let modNodes : List RustNode := (scanP matchMod code 0).map (fun m =>
      { id := generateId "module" ⟨m.2.2⟩ moduleName,
        type := "module", name := ⟨m.2.2⟩, path := moduleName, file := filePath,
        visibility := some (rustVisibility code m.1) })
    let useNodes : List RustNode := (scanP matchUse code 0).map (fun m =>
      { id := generateId "use" ⟨m.2.2⟩ moduleName,
        type := "use", name := ⟨m.2.2⟩, path := moduleName, file := filePath })
    (fnNodes ++ structNodes ++ enumNodes ++ traitNodes ++ implNodes ++ modNodes ++ useNodes,
     fnDeps ++ implDeps)

/-- Node path.relative specialized to the shape guaranteed by file discovery:
every discovered file path extends the project root followed by a slash. -/
def relPath (root file : List Char) : List Char :=
  if (root ++ ['/']).isPrefixOf file then file.drop (root.length + 1) else file

/-- The path rewrite of parseRustProject: module path from the file location,
with the .rs suffix, backslashes, a leading src/ and slash separators
normalized, prepended to the node name. -/
def rewriteNodePath (projectPath : String) (node : RustNode) : RustNode :=
  let modulePath : List Char :=
    replaceAllChar
      (stripPre (replaceAllChar (stripSuffix (relPath projectPath.data node.file.data)
        ".rs".data) '\\' ['/']) "src/".data) '/' [':', ':']
  { node with path := if modulePath.isEmpty then node.name
                      else (⟨modulePath⟩ : String) ++ "::" ++ node.name }

/-- The chained String.replace calls that map an edge kind to the node type a
target of that kind must have (each replace rewrites the first occurrence). -/
def targetType (t : String) : String :=
  ⟨replaceFirst (replaceFirst (replaceFirst (replaceFirst (replaceFirst t.data
      "calls".data "function".data)
      "implements".data "trait".data)
      "uses".data "use".data)
      "contains".data "module".data)
      "extends".data "struct".data⟩

/-- The last colon-separated segment of a raw target id (split(..).pop()). -/
def lastColonSeg (t : String) : String :=
  ⟨(splitChar ':' t.data).getLast!⟩

/-- The dependency-resolution filter of parseRustProject: an edge is kept only
when its source matches a node id and a node with the matching type and the
target's bare name exists; the target is then rewritten to that node's id. -/
def resolveDep (nodes : List RustNode) (dep : RustDep) : Option RustDep :=
  match nodes.find? (fun n => n.id == dep.source) with
  | none => none
  | some _ =>
    match nodes.find? (fun n =>
        n.type == targetType dep.type && n.name == lastColonSeg dep.target) with
    | some tc => some { dep with target := tc.id }
    | none => none

/-- parseRustProject of rust-parser-simple, with file discovery and reads
modelled by the files argument (path and optional content per file in
discovery order). -/
def parseRustProjectFiles (projectPath : String)
    (files : List (String × Option String)) : RustProject :=
  let results := files.map (fun f => parseRustFile f.1 f.2)
  let allNodes0 := (results.map (·.1)).flatten
  let allDeps0 := (results.map (·.2)).flatten
  let allNodes := allNodes0.map (rewriteNodePath projectPath)
  let allDeps := allDeps0.filterMap (resolveDep allNodes)
  { name := ⟨baseName projectPath.data⟩, root := projectPath,
    nodes := allNodes, dependencies := allDeps }

/-- A node of the flat GraphData: optional JS fields are Option-valued. -/
structure GNode where
  id : String
  name : String
  type : String
  val : Nat
  color : Option String := none
  group : Option String := none
  path : Option String := none
  file : Option String := none
  signature : Option String := none
deriving DecidableEq, Inhabited

/-- A link of the flat GraphData. -/
structure GLink where
  source : String
  target : String
  type : String
  value : Option Nat := none
deriving DecidableEq, Inhabited

/-- The flat GraphData. -/
structure GraphData where
  nodes : List GNode
  links : List GLink
deriving DecidableEq

/-- The per-kind node size table of convertToGraphData (default 5). -/
def rustNodeSize (t : String) : Nat :=
  if t = "function" then 5 else if t = "struct" then 8 else if t = "enum" then 7
  else if t = "trait" then 9 else if t = "impl" then 6 else if t = "module" then 10
  else if t = "constant" then 4 else if t = "macro" then 6 else if t = "use" then 3
  else 5

/-- The per-kind node color table of convertToGraphData (default grey). -/
def rustNodeColor (t : String) : String :=
  if t = "function" then "#4285F4" else if t = "struct" then "#EA4335"
  else if t = "enum" then "#FBBC05" else if t = "trait" then "#34A853"
  else if t = "impl" then "#9C27B0" else if t = "module" then "#FF9800"
  else if t = "constant" then "#795548" else if t = "macro" then "#607D8B"
  else if t = "use" then "#9E9E9E" else "#9E9E9E"

/-- The first two-colon-separated segment of a path. -/
def firstSeg (p : String) : String :=
  ⟨(splitSep p.data).headI⟩

/-- convertToGraphData of rust-parser-simple: flat force-graph projection. -/
def convertToGraphData (p : RustProject) : GraphData :=
  { nodes := p.nodes.map (fun n =>
      { id := n.id, name := n.name, type := n.type,
        val := rustNodeSize n.type, color := some (rustNodeColor n.type),
        group := some (firstSeg n.path), path := some n.path,
        file := some n.file, signature := n.signature }),
    links := p.dependencies.map (fun d =>
      { source := d.source, target := d.target, type := d.type,
        value := some (match d.weight with
                       | some w => if w = 0 then 1 else w
                       | none => 1) }) }

/-- JS Map.set on an association list: an existing key keeps its position and
gets the new value, a new key is appended. -/
def setAssoc (m : List (String × String)) (k v : String) : List (String × String) :=
  match m with
  | [] => [(k, v)]
  | (k0, v0) :: t => if k0 = k then (k0, v) :: t else (k0, v0) :: setAssoc t k v

/-- Association-list lookup (JS Map.get). -/
def lookupA (m : List (String × String)) (k : String) : Option String :=
  match m with
  | [] => none
  | (k0, v0) :: t => if k0 = k then some v0 else lookupA t k

/-- The node-id-to-module map of filterModuleDependencies: nodes with a truthy
path are registered under their first path segment, later writes winning. -/
def moduleMapOf (nodes : List GNode) : List (String × String) :=
  nodes.foldl (fun acc n =>
    if jsTruthy n.path then setAssoc acc n.id (firstSeg (n.path.getD "")) else acc) []

/-- The find-and-increment step of the module-link aggregation: the first link
with this source and target gets value + 1, otherwise a fresh link with
value 1 and type contains is appended. -/
def bumpLink (acc : List GLink) (sm tm : String) : List GLink :=
  match acc with
  | [] => [{ source := sm, target := tm, type := "contains", value := some 1 }]
  | hd :: t =>
    if hd.source = sm ∧ hd.target = tm then
      { hd with value := some (hd.value.getD 0 + 1) } :: t
    else hd :: bumpLink t sm tm

/-- One link-processing step of filterModuleDependencies. -/
def aggStep (mm : List (String × String)) (acc : List GLink) (l : GLink) : List GLink :=
  match lookupA mm l.source, lookupA mm l.target with
  | some sm, some tm => if sm ≠ tm then bumpLink acc sm tm else acc
  | _, _ => acc

/-- JS Set insertion-order deduplication (first occurrence kept). -/
def dedupF : List String → List String
  | [] => []
  | x :: t => x :: (dedupF t).filter (fun y => y ≠ x)

/-- filterModuleDependencies of the analysis route. -/
def filterModuleDependencies (g : GraphData) : GraphData :=
  let mm := moduleMapOf g.nodes
  let moduleLinks := g.links.foldl (aggStep mm) []
  let uniqueModules := dedupF (mm.map (·.2))
  { nodes := uniqueModules.map (fun m =>
      { id := m, name := m, type := "module", val := 10, color := some "#FF9800" }),
    links := moduleLinks }

/-- The module assigned to a node id by the aggregation's map (the first path
segment of the last node with that id and a truthy path). -/
def ModOf (g : GraphData) (i : String) : Option String :=
  lookupA (moduleMapOf g.nodes) i

/-- The number of underlying links leading from a node of module A to a node
of module B, measured through the aggregation's node-to-module map. -/
def cntLinks (mm : List (String × String)) (ls : List GLink) (A B : String) : Nat :=
  (ls.filter (fun l => lookupA mm l.source == some A && lookupA mm l.target == some B)).length

/-- filterCallGraph of the analysis route: function nodes and calls links. -/
def filterCallGraph (g : GraphData) : GraphData :=
  { nodes := g.nodes.filter (fun n => n.type == "function"),
    links := g.links.filter (fun l => l.type == "calls") }

/-- A tree node of the hierarchical view.  The JS object spread also copies
the rendering fields val, color and group onto leaf entries; they are not
part of the TreeNode contract and are not modelled. -/
inductive HTree where
  | mk (id name type : String) (path file signature : Option String)
       (children : List HTree)
deriving Inhabited

/-- Accessor for the id of a tree node. -/
def HTree.id : HTree → String
  | .mk i _ _ _ _ _ _ => i

/-- Accessor for the name of a tree node. -/
def HTree.name : HTree → String
  | .mk _ n _ _ _ _ _ => n

/-- Accessor for the type of a tree node. -/
def HTree.type : HTree → String
  | .mk _ _ t _ _ _ _ => t

/-- Accessor for the path of a tree node. -/
def HTree.path : HTree → Option String
  | .mk _ _ _ p _ _ _ => p

/-- Accessor for the children of a tree node. -/
def HTree.children : HTree → List HTree
  | .mk _ _ _ _ _ _ c => c

/-- The hierarchical view data: a named root above the root modules. -/
structure HData where
  name : String
  children : List HTree

/-- A child entry of a synthesized module: either a reference to another
module (JS object sharing) or an attached leaf node. -/
inductive MChild where
  | ref (key : String)
  | leaf (n : GNode)
deriving DecidableEq

/-- One entry of the modules record: its key (the module path), the segment
name it was created with, and its accumulated children. -/
structure MEntry where
  key : String
  name : String
  children : List MChild
deriving DecidableEq

/-- Whether the modules record has a key. -/
def mmHas (m : List MEntry) (k : String) : Bool :=
  m.any (fun e => e.key == k)

/-- Children of a key of the modules record (empty when absent). -/
def mmChildren (m : List MEntry) (k : String) : List MChild :=
  match m.find? (fun e => e.key == k) with
  | some e => e.children
  | none => []

/-- Append a child to the entry with the given key. -/
def mmPush (m : List MEntry) (k : String) (c : MChild) : List MEntry :=
  m.map (fun e => if e.key = k then { e with children := e.children ++ [c] } else e)

/-- One step of the per-node prefix walk of convertToHierarchical: extend the
current path by one segment (JS string truthiness on the current path),
create the module on first encounter and link it under its parent. -/
def chainStep (m : List MEntry) (cur : String) (part : String) :
    List MEntry × String :=
  let newPath := if cur ≠ "" then cur ++ "::" ++ part else part
  if mmHas m newPath then (m, newPath)
  else
    let m1 := m ++ [{ key := newPath, name := part, children := [] }]
    if cur ≠ "" ∧ mmHas m cur then (mmPush m1 cur (.ref newPath), newPath)
    else (m1, newPath)

/-- Process one graph node: walk its path segments creating the module chain,
then attach the node itself (when not a module and its path is truthy)
under the substring of its path before the last separator. -/
def processNode (m : List MEntry) (n : GNode) : List MEntry :=
  let parts := (splitSep (n.path.getD "").data).map (fun l => (⟨l⟩ : String))
  let m1 := (parts.foldl (fun acc part => chainStep acc.1 acc.2 part) (m, "")).1
  if n.type ≠ "module" ∧ jsTruthy n.path then
    let p := (n.path.getD "").data
    let mp : String := ⟨jsSubstring p 0 (jsLastIndexOf p [':', ':'])⟩
    if mmHas m1 mp then mmPush m1 mp (.leaf n) else m1
  else m1

/-- The modules record accumulated over all nodes of the graph. -/
def buildModules (g : GraphData) : List MEntry :=
  g.nodes.foldl processNode []

/-- Materialize the tree of a module entry.  Module references always point to
strictly longer keys, so any reference chain visits distinct keys and the
fuel one beyond the record size suffices to reproduce the JS structure. -/
def matTree (m : List MEntry) : Nat → MEntry → HTree
  | 0, e => .mk ("module:" ++ e.key) e.name "module" (some e.key) none none []
  | fuel + 1, e =>
    .mk ("module:" ++ e.key) e.name "module" (some e.key) none none
      (e.children.map (fun c =>
        match c with
        | .leaf n => .mk n.id n.name n.type n.path n.file n.signature []
        | .ref k =>
          match m.find? (fun e2 => e2.key == k) with
          | some e2 => matTree m fuel e2
          | none => .mk ("module:" ++ k) "" "module" (some k) none none []))

/-- convertToHierarchical of the analysis route. -/
def convertToHierarchical (g : GraphData) : HData :=
  let m := buildModules g
  let roots := m.filter (fun e => (splitSep e.key.data).length == 1)
  { name := "root", children := roots.map (matTree m (m.length + 1)) }

mutual

/-- Whether a node id occurs in a materialized tree. -/
def occursT : HTree → String → Bool
  | .mk i _ _ _ _ _ ch, s => i == s || occursL ch s

/-- Whether a node id occurs in any tree of a list. -/
def occursL : List HTree → String → Bool
  | [], _ => false
  | t :: ts, s => occursT t s || occursL ts s

end

/-- Whether a node id occurs anywhere in the hierarchical view. -/
def occursH (h : HData) (i : String) : Bool :=
  occursL h.children i

/-- The path obtained by joining segments with the module separator. -/
def pathJoin (segs : List String) : String :=
  ⟨joinSep (segs.map String.data)⟩

/-- Extending a base path by further segments, one separator at a time (the
shape of the prefix walk of convertToHierarchical). -/
def extJoin (cur : String) (parts : List String) : String :=
  parts.foldl (fun a p => a ++ "::" ++ p) cur

/-- The keys of the modules record. -/
def entKeys (m : List MEntry) : List String :=
  m.map (·.key)

/-- The well-formedness invariant of the modules record: every key containing
the separator factors at a separator-free tail, and the entry of the factor
prefix holds a reference to it.  This reflects that every nested module was
created from its parent during some prefix walk. -/
def INVR (m : List MEntry) : Prop :=
  ∀ e ∈ m, hasSep e.key.data = true →
    ∃ c p, e.key.data = c ++ ':' :: ':' :: p ∧ hasSep p = false ∧
      ∃ e2 ∈ m, e2.key.data = c ∧ MChild.ref e.key ∈ e2.children

/-- Reference chains through the modules record, counting steps. -/
inductive RefChain (m : List MEntry) : String → String → Nat → Prop where
  | refl (k : String) : RefChain m k k 0
  | step {k k2 q : String} {d : Nat} (h1 : MChild.ref k2 ∈ mmChildren m k)
      (h2 : mmHas m k2 = true) (h3 : RefChain m k2 q d) : RefChain m k q (d + 1)

/-- PythonNode of python-types. -/
structure PyNode where
  id : String
  type : String
  name : String
  path : String
  file : String
  signature : Option String := none
  docstring : Option String := none
  decorators : Option (List String) := none
deriving DecidableEq, Inhabited

/-- PythonDependency of python-types. -/
structure PyDep where
  source : String
  target : String
  type : String
  weight : Option Nat := none
deriving DecidableEq, Inhabited

/-- PythonProject of python-types. -/
structure PyProject where
  name : String
  root : String
  nodes : List PyNode
  dependencies : List PyDep
deriving DecidableEq

/-- Length of the leading whitespace run of a line (the ^(\s*) match). -/
def leadingSpaces (l : List Char) : Nat :=
  (munch jsSpace l).1.length

/-- Length of lines.slice(0, k).join(newline). -/
def joinLen (ls : List (List Char)) (k : Nat) : Nat :=
  if k = 0 then 0 else ((ls.take k).map List.length).sum + (k - 1)

/-- The scan of findClassEndIndex / findFunctionEndIndex over the lines after
the header: the first nonempty non-comment line whose indentation does not
exceed the header's ends the block.  The flag marks whether the current
line is the very first line of the split (the join length then grows
without a separator). -/
def scanEnd (indent : Int) (start : Int) :
    List (List Char) → Bool → Int → Option Int
  | [], _, _ => none
  | l :: t, isFirst, jl =>
    let lr := jsTrimEnd l
    if lr.length > 0 ∧ (leadingSpaces lr : Int) ≤ indent ∧
        ¬ startsStr (jsTrim lr) ['#'] then some (start + jl)
    else scanEnd indent start t false
      (if isFirst then (l.length : Int) else jl + 1 + l.length)

/-- findClassEndIndex and findFunctionEndIndex of python-parser, parameterized
by the header keyword (class or def followed by a space). -/
def findBlockEnd (kw : List Char) (code : List Char) (start : Int) : Int :=
  let lines := splitChar '\n' (jsSubstringFrom code start)
  let hdr := lines.findIdx? (fun l => startsStr (jsTrim l) kw)
  let indent : Int := match hdr with
    | some i => (leadingSpaces (lines.getD i []) : Int)
    | none => -1
  let lineIndex : Nat := match hdr with | some i => i + 1 | none => 0
  match scanEnd indent start (lines.drop lineIndex) (decide (lineIndex = 0))
      (joinLen lines lineIndex) with
  | some r => r
  | none => (code.length : Int)

/-- A successful findLast yields a real occurrence. -/
theorem findLast_isPre {pat l : List Char} {k : Nat} (h : findLast pat l = some k) :
    pat.isPrefixOf (l.drop k) := by
  induction l generalizing k with
  | nil =>
    unfold findLast at h
    by_cases hp : pat.isEmpty <;> simp [hp] at h
    subst h
    simp [List.isEmpty_iff.mp hp, List.isPrefixOf]
  | cons c t ih =>
    unfold findLast at h
    cases hf : findLast pat t with
    | some k0 =>
      rw [hf] at h
      simp at h
      subst h
      simpa using ih hf
    | none =>
      rw [hf] at h
      by_cases hp : pat.isPrefixOf (c :: t) <;> simp [hp] at h
      subst h
      simpa using hp

/-- The last-index search for a character below a bound stays below the bound
plus one (needed for the termination of the decorator walk). -/
theorem jsLastIndexOfCharLe_toNat_le (s : List Char) (c : Char) (b : Int) :
    (jsLastIndexOfCharLe s c b).toNat ≤ b.toNat := by
  unfold jsLastIndexOfCharLe
  cases hf : findLast [c] (s.take (b.toNat + 1)) with
  | none => simp
  | some k =>
    have hocc := findLast_isPre hf
    have hk : k < (s.take (b.toNat + 1)).length := by
      by_contra hge
      push_neg at hge
      rw [List.drop_eq_nil_of_le hge] at hocc
      simp [List.isPrefixOf] at hocc
    have : k ≤ b.toNat := by
      have := List.length_take_le (b.toNat + 1) s
      omega
    simpa using this

/-- The decorator walk of parsePythonFile: starting at the match index, walk
upwards line by line collecting lines that start with the at sign, skipping
blank lines, stopping at the first other line.  The JS loop variable can
reach -1; both -1 and 0 end the loop, so the position is kept as a Nat.
The structural fuel always dominates the strictly decreasing position (see
jsLastIndexOfCharLe_toNat_le), so zero fuel coincides with a zero position
and the function is exactly the unbounded loop. -/
def decorAux (code : List Char) : Nat → Nat → List String → List String
  | 0, _, acc => acc
  | fuel + 1, pos, acc =>
    if 0 < pos then
      let lineStart := jsLastIndexOfCharLe code '\n' ((pos : Int) - 1)
      let line := jsTrim (jsSubstring code (lineStart + 1) pos)
      if startsStr line ['@'] then decorAux code fuel lineStart.toNat (acc ++ [⟨line.drop 1⟩])
      else if line.isEmpty then decorAux code fuel lineStart.toNat acc
      else acc
    else acc

/-- The decorator walk started at the match position. -/
def decorLoop (code : List Char) (pos : Nat) (acc : List String) : List String :=
  decorAux code pos pos acc

/-- The docstring heuristic shared by the class, function and method
extraction: a triple-quoted block between the header and the next blank
line. -/
def pyDocstring (src : List Char) (after : Int) : String :=
  let ds := jsIndexOf src "\"\"\"".data after
  let nn := jsIndexOf src ['\n', '\n'] after
  if ds > -1 ∧ ds < nn then
    let de := jsIndexOf src "\"\"\"".data (ds + 3)
    if de > -1 then ⟨jsTrim (jsSubstring src (ds + 3) de)⟩ else ""
  else ""

/-- Matcher for the tail import\s+([^#\n]+) of the Python import regex,
including the JS backtracking where a greedy space run of length at least
two gives its last space back to the capture. -/
def importTail (s : List Char) : Option (List Char × List Char) :=
  match expectStr "import".data s with
  | none => none
  | some s1 =>
    let r1 := munch jsSpace s1
    if r1.1.isEmpty then none else
    let r2 := munch (fun c => c != '#' && c != '\n') r1.2
    if r2.1.isEmpty then
      if 2 ≤ r1.1.length then some ([r1.1.getLast!], r1.2) else none
    else some (r2.1, r2.2)

/-- Matcher for the Python import regex
(from-anchor) \s*(?:from\s+([.\w]+)\s+)?import\s+([^#\n]+) after a line
start, returning (optional from-module, raw item list). -/
def matchPyImport (s0 : List Char) :
    Option ((Option (List Char) × List Char) × List Char) :=
  let s1 := (munch jsSpace s0).2
  let fromBranch : Option ((Option (List Char) × List Char) × List Char) :=
    match expectStr "from".data s1 with
    | none => none
    | some s2 =>
      let r1 := munch jsSpace s2
      if r1.1.isEmpty then none else
      let rw := munch (fun c => c == '.' || identChar c) r1.2
      if rw.1.isEmpty then none else
      let r2 := munch jsSpace rw.2
      if r2.1.isEmpty then none else
      match importTail r2.2 with
      | some (items, rest) => some ((some rw.1, items), rest)
      | none => none
  match fromBranch with
  | some r => some r
  | none =>
    match importTail s1 with
    | some (items, rest) => some ((none, items), rest)
    | none => none

/-- Matcher for the Python class regex
\s*class\s+([a-zA-Z_]\w*)\s*(?:\(([^)]*)\))?: after a line start,
returning (class name, optional raw parent list). -/
def matchPyClass (s0 : List Char) :
    Option ((List Char × Option (List Char)) × List Char) :=
  let s1 := (munch jsSpace s0).2
  match expectStr "class".data s1 with
  | none => none
  | some s2 =>
    let r1 := munch jsSpace s2
    if r1.1.isEmpty then none else
    match ident r1.2 with
    | none => none
    | some (name, s3) =>
      let s4 := (munch jsSpace s3).2
      match s4 with
      | '(' :: s5 =>
        let r2 := munch (fun c => c != ')') s5
        (match r2.2 with
         | ')' :: ':' :: rest => some ((name, some r2.1), rest)
         | _ => none)
      | ':' :: rest => some ((name, none), rest)
      | _ => none

/-- Matcher for the common tail of the Python def regexes:
def\s+([a-zA-Z_]\w*)\s*\(([^)]*)\)(?:\s*->\s*([^:]*))?\s*: returning
(name, raw params, optional raw return annotation). -/
def defTail (s : List Char) :
    Option ((List Char × List Char × Option (List Char)) × List Char) :=
  match expectStr "def".data s with
  | none => none
  | some s1 =>
    let r1 := munch jsSpace s1
    if r1.1.isEmpty then none else
    match ident r1.2 with
    | none => none
    | some (name, s2) =>
      let s3 := (munch jsSpace s2).2
      match s3 with
      | '(' :: s4 =>
        let r2 := munch (fun c => c != ')') s4
        (match r2.2 with
         | ')' :: s5 =>
           let sA := (munch jsSpace s5).2
           (match expectStr ['-', '>'] sA with
            | some sB =>
              let sC := (munch jsSpace sB).2
              let r3 := munch (fun c => c != ':') sC
              (match r3.2 with
               | ':' :: rest => some ((name, r2.1, some r3.1), rest)
               | _ => none)
            | none =>
              match (munch jsSpace s5).2 with
              | ':' :: rest => some ((name, r2.1, none), rest)
              | _ => none)
         | _ => none)
      | _ => none

/-- Matcher for the standalone function regex: \s* then the def tail, tried
after a line start. -/
def matchPyFn (s0 : List Char) :
    Option ((List Char × List Char × Option (List Char)) × List Char) :=
  defTail ((munch jsSpace s0).2)

/-- Matcher for the method regex: a literal newline, mandatory indentation,
then the def tail (plain global scan, not line-anchored). -/
def matchPyMethod (s0 : List Char) :
    Option ((List Char × List Char × Option (List Char)) × List Char) :=
  match s0 with
  | '\n' :: s1 =>
    let r1 := munch jsSpace s1
    if r1.1.isEmpty then none else defTail r1.2
  | _ => none

/-- Matcher for the method-body call regex (?:self\.)?([a-zA-Z_]\w*)\s*\(,
with the self prefix backtracked away when the rest does not complete. -/
def matchSelfCall (s0 : List Char) : Option (List Char × List Char) :=
  match expectStr "self.".data s0 with
  | some s1 =>
    match matchCall s1 with
    | some r => some r
    | none => matchCall s0
  | none => matchCall s0

/-- Builtin and keyword names skipped by the Python call extraction. -/
def pyCallSkip : List (List Char) :=
  ["if".data, "while".data, "for".data, "print".data, "len".data,
   "str".data, "int".data, "float".data]

/-- The anchored replace of self or cls (with an optional following comma and
spaces) at the front of a parameter list. -/
def stripSelfCls (params : List Char) : List Char :=
  let rest :=
    if "self".data.isPrefixOf params then params.drop 4
    else if "cls".data.isPrefixOf params then params.drop 3
    else params
  if rest.length = params.length then params
  else
    match rest with
    | ',' :: r2 => (munch jsSpace r2).2
    | _ => rest

/-- The first whitespace-delimited token of a trimmed import item (the
(\S+)(?:\s+as\s+(\S+))? match, falling back to the trimmed item). -/
def itemName (item : List Char) : List Char :=
  let t := jsTrim item
  if t.isEmpty then t else jsTrim (munch (fun c => !jsSpace c) t).1

/-- The Python signature of a def: name, cleaned parameters and an optional
return annotation. -/
def pySig (name params ret : String) : String :=
  "def " ++ name ++ "(" ++ params ++ ")" ++ (if ret ≠ "" then " -> " ++ ret else "")

/-- parseClassMethods of python-parser: extract methods of one class body,
yielding method nodes, contains edges and call edges in scan order. -/
def parseClassMethods (classBody : List Char) (pkg filePath className classId : String) :
    List PyNode × List PyDep :=
  let ms := scanP matchPyMethod classBody 0
  let results := ms.map (fun m =>
    let name : String := ⟨m.2.2.1⟩
    let params0 := jsTrim m.2.2.2.1
    let isInstance := startsStr params0 "self".data || startsStr params0 "cls".data
    let params : String := ⟨if isInstance then stripSelfCls params0 else params0⟩
    let ret : String := match m.2.2.2.2 with
      | some r => ⟨jsTrim r⟩
      | none => ""
    let methodId := generateId "method" (className ++ "." ++ name) pkg
    let node : PyNode :=
      { id := methodId, type := "method", name := name, path := pkg, file := filePath,
        signature := some (pySig name params ret),
        docstring := some (pyDocstring classBody ((m.1 : Int) + m.2.1)) }
    let containsDep : PyDep := { source := classId, target := methodId, type := "contains" }
    let endIndex := findBlockEnd "def ".data classBody m.1
    let callDeps : List PyDep :=
      if (m.1 : Int) < endIndex then
        (scanP matchSelfCall (jsSubstring classBody m.1 endIndex) 0).filterMap (fun c =>
          if pyCallSkip.contains c.2.2 || c.2.2 = name.data then none
          else
            let called : String := ⟨c.2.2⟩
            let targetId :=
              if called.data.contains '.' then generateId "method" called ""
              else generateId "method" (className ++ "." ++ called) pkg
            some { source := methodId, target := targetId, type := "calls" })
      else []
    (node, containsDep :: callDeps))
  ((results.map (·.1)), (results.map (·.2)).flatten)

/-- parsePythonFile of python-parser.  The packagePath computed by the
getPackagePath probe of sibling init files is passed in as pkg; the
readFileSync try/catch is modelled by the Option content. -/
def parsePythonFile (pkg : String) (filePath : String) (content : Option String) :
    List PyNode × List PyDep :=
  match content with
  | none => ([], [])
  | some codeStr =>
    let code := codeStr.data
    let moduleName : String := ⟨stripSuffix (baseName filePath.data) ".py".data⟩
    let importMatches := scanA matchPyImport code 0 true
    let importResults := importMatches.map (fun m =>
      let fromModule : String := match m.2.2.1 with
        | some f => ⟨f⟩
        | none => ""
      let items := (splitChar ',' m.2.2.2).map itemName
      let perItem := items.map (fun it =>
        let importName : String := ⟨it⟩
        let node : PyNode :=
          { id := generateId "import" importName pkg, type := "import",
            name := importName, path := pkg, file := filePath }
        let dep : PyDep :=
          if fromModule ≠ "" then
            { source := generateId "module" moduleName pkg,
              target := generateId "import" (fromModule ++ "." ++ importName) "",
              type := "imports" }
          else
            { source := generateId "module" moduleName pkg,
              target := generateId "import" importName "",
              type := "imports" }
        (node, dep))
      (perItem.map (·.1), perItem.map (·.2)))
    let importNodes := (importResults.map (·.1)).flatten
    let importDeps := (importResults.map (·.2)).flatten
    let classMatches := scanA matchPyClass code 0 true
    let classResults := classMatches.map (fun m =>
      let className : String := ⟨m.2.2.1⟩
      let parents : List String := match m.2.2.2 with
        | some ps => if ps.isEmpty then [] else (splitChar ',' ps).map (fun p => ⟨jsTrim p⟩)
        | none => []
      let classId := generateId "class" className pkg
      let docstring := pyDocstring code ((m.1 : Int) + m.2.1)
      let node : PyNode :=
        { id := classId, type := "class", name := className, path := pkg, file := filePath,
          signature := some ("class " ++ className ++
            (if parents.isEmpty then "" else "(" ++ String.intercalate ", " parents ++ ")")),
          docstring := some docstring }
      let inheritDeps : List PyDep := parents.filterMap (fun p =>
        if p ≠ "object" then
          some { source := classId, target := generateId "class" p "", type := "inherits" }
        else none)
      let classEnd := findBlockEnd "class ".data code m.1
      let methodPart :=
        if (m.1 : Int) < classEnd then
          parseClassMethods (jsSubstring code m.1 classEnd) pkg filePath className classId
        else ([], [])
      (node :: methodPart.1, inheritDeps ++ methodPart.2))
    let classNodes := (classResults.map (·.1)).flatten
    let classDeps := (classResults.map (·.2)).flatten
    let nodesSoFar := importNodes ++ classNodes
    let fnMatches := scanA matchPyFn code 0 true
    let fnResults := fnMatches.filterMap (fun m =>
      let insideClass := nodesSoFar.any (fun nd =>
        nd.type == "class" && nd.file == filePath &&
          (let ci := jsIndexOf code ("class " ++ nd.name).data 0
           decide ((m.1 : Int) > ci) && decide ((m.1 : Int) < findBlockEnd "class ".data code ci)))
      if insideClass then none
      else
        let name : String := ⟨m.2.2.1⟩
        let params : String := ⟨jsTrim m.2.2.2.1⟩
        let ret : String := match m.2.2.2.2 with
          | some r => ⟨jsTrim r⟩
          | none => ""
        let functionId := generateId "function" name pkg
        let decorators := decorLoop code m.1 []
        let docstring := pyDocstring code ((m.1 : Int) + m.2.1)
        let node : PyNode :=
          { id := functionId, type := "function", name := name, path := pkg, file := filePath,
            signature := some (pySig name params ret),
            docstring := some docstring,
            decorators := if decorators.length > 0 then some decorators else none }
        let endIndex := findBlockEnd "def ".data code m.1
        let callDeps : List PyDep :=
          if (m.1 : Int) < endIndex then
            (scanP matchCall (jsSubstring code m.1 endIndex) 0).filterMap (fun c =>
              if pyCallSkip.contains c.2.2 || c.2.2 = name.data then none
              else some { source := functionId,
                          target := generateId "function" ⟨c.2.2⟩ "",
                          type := "calls" })
          else []
        some (node, callDeps))
    let fnNodes := fnResults.map (·.1)
    let fnDeps := (fnResults.map (·.2)).flatten
    (importNodes ++ classNodes ++ fnNodes, importDeps ++ classDeps ++ fnDeps)

/-- One discovered Python file: its package path (the getPackagePath probe of
sibling init files, modelled as data), its path and its read result. -/
structure PyFile where
  pkg : String
  path : String
  content : Option String
deriving DecidableEq

/-- parsePythonProject of python-parser: pure concatenation of the per-file
results, with no resolution pass. -/
def parsePythonProjectFiles (projectPath : String) (files : List PyFile) : PyProject :=
  let results := files.map (fun f => parsePythonFile f.pkg f.path f.content)
  { name := ⟨baseName projectPath.data⟩, root := projectPath,
    nodes := (results.map (·.1)).flatten,
    dependencies := (results.map (·.2)).flatten }

/-- Single-file Rust input of the C3 scenario. -/
def c3code : String := "pub fn a() \x7b b(); \x7d\nfn b() \x7b\x7d"

/-- Single-file Rust input with one call to an undeclared function. -/
def c1code : String := "fn a() \x7b missing_call(); \x7d"

/-- Single-file Python input of the C7 scenario. -/
def c7code : String := "class Foo:\n    def bar(self):\n        pass\n"

/-- Python file with one call to an undeclared function. -/
def c1pyCode : String := "def f():\n    g()\n"

/-- A graph with one function node whose path has a single segment. -/
def c5graph : GraphData :=
  { nodes := [{ id := "function:main:f", name := "f", type := "function",
                val := 5, path := some "main" }],
    links := [] }

/-- A well-formed two-segment function node. -/
def c5nodeW : GNode :=
  { id := "function:m:f", name := "f", type := "function", val := 5, path := some "m::f" }

/-- A graph with one well-formed two-segment function node. -/
def c5graphW : GraphData :=
  { nodes := [c5nodeW], links := [] }

/-- A two-module graph exercising the module-dependency aggregation. -/
def c4graph : GraphData :=
  { nodes := [{ id := "x", name := "x", type := "function", val := 5, path := some "A::x" },
              { id := "y", name := "y", type := "function", val := 5, path := some "B::y" }],
    links := [{ source := "x", target := "y", type := "calls" },
              { source := "x", target := "y", type := "calls" },
              { source := "y", target := "x", type := "uses" },
              { source := "x", target := "x", type := "calls" }] }

end VisCode

namespace VisCode

/-! Supporting lemmas. -/

/-- Strings with equal character data are equal. -/
theorem strExt {s t : String} (h : s.data = t.data) : s = t := by
  cases s; cases t; exact congrArg String.mk h

/-- Cancellation around the first colon for colon-free prefixes. -/
theorem colon_cancel : ∀ (t1 t2 r1 r2 : List Char), ':' ∉ t1 → ':' ∉ t2 →
    t1 ++ ':' :: r1 = t2 ++ ':' :: r2 → t1 = t2 ∧ r1 = r2 := by
  intro t1
  induction t1 with
  | nil =>
    intro t2 r1 r2 _ h2 h
    cases t2 with
    | nil => simpa using h
    | cons d t2 =>
      simp at h
      exact absurd (h.1 ▸ List.mem_cons_self d t2) h2
  | cons c t1 ih =>
    intro t2 r1 r2 h1 h2 h
    cases t2 with
    | nil =>
      simp at h
      exact absurd (h.1 ▸ List.mem_cons_self c t1) h1
    | cons d t2 =>
      simp at h
      obtain ⟨rfl, h⟩ := h
      have := ih t2 r1 r2 (fun hm => h1 (List.mem_cons_of_mem _ hm))
        (fun hm => h2 (List.mem_cons_of_mem _ hm)) h
      exact ⟨by simp [this.1], this.2⟩

/-- The id scheme is injective in the kind and name for colon-free kinds and a
fixed scope. -/
theorem generateId_inj {t1 t2 n1 n2 p : String} (h1 : ':' ∉ t1.data) (h2 : ':' ∉ t2.data)
    (h : generateId t1 n1 p = generateId t2 n2 p) : t1 = t2 ∧ n1 = n2 := by
  have hd : t1.data ++ ':' :: (p.data ++ ':' :: n1.data)
      = t2.data ++ ':' :: (p.data ++ ':' :: n2.data) := by
    have := congrArg String.data h
    simpa [generateId] using this
  obtain ⟨ht, hr⟩ := colon_cancel _ _ _ _ h1 h2 hd
  have hn := List.cons_injective (List.append_cancel_left hr)
  exact ⟨strExt ht, strExt hn⟩

/-- Every node produced by a successful parseRustFile carries an id built by
generateId from its own kind, file-derived module scope and name, and its
kind is one of the colon-free kind literals. -/
theorem parseRustFile_id_shape (fp code : String) (n : RustNode)
    (hn : n ∈ (parseRustFile fp (some code)).1) :
    n.id = generateId n.type n.name (⟨stripSuffix (baseName fp.data) ".rs".data⟩ : String)
      ∧ ':' ∉ n.type.data := by
  simp only [parseRustFile, List.mem_append] at hn
  rcases hn with ((((((hn | hn) | hn) | hn) | hn) | hn) | hn) <;>
    (obtain ⟨m, _, rfl⟩ := List.mem_map.mp hn) <;> exact ⟨rfl, of_decide_eq_true rfl⟩

/-- The resolution step only keeps an edge after locating a source node by id
and a target node by translated kind and bare name, rewriting the target to
that node's id. -/
theorem resolveDep_spec {nodes : List RustNode} {d0 d : RustDep}
    (h : resolveDep nodes d0 = some d) :
    (∃ n ∈ nodes, n.id = d.source) ∧
      (∃ n ∈ nodes, n.id = d.target ∧ n.type = targetType d.type) ∧ d.type = d0.type := by
  unfold resolveDep at h
  cases hs : nodes.find? (fun n => n.id == d0.source) with
  | none => rw [hs] at h; exact absurd h (by simp)
  | some ns =>
    rw [hs] at h
    cases ht : nodes.find? (fun n =>
        n.type == targetType d0.type && n.name == lastColonSeg d0.target) with
    | none => rw [ht] at h; exact absurd h (by simp)
    | some tc =>
      rw [ht] at h
      simp only [Option.some.injEq] at h
      subst h
      have hsm := List.mem_of_find?_eq_some hs
      have hsp := List.find?_some hs
      have htm := List.mem_of_find?_eq_some ht
      have htp := List.find?_some ht
      simp only [beq_iff_eq, Bool.and_eq_true] at hsp htp
      exact ⟨⟨ns, hsm, hsp⟩, ⟨tc, htm, rfl, htp.1⟩, rfl⟩

/-- The links of a module-aggregation accumulator between one ordered pair. -/
def pairLinks (acc : List GLink) (A B : String) : List GLink :=
  acc.filter (fun l => l.source == A && l.target == B)

/-- Bumping a pair turns the first matching entry's value up by one or appends
a fresh contains entry of value one. -/
theorem bump_pairLinks_hit (A B : String) : ∀ acc : List GLink,
    pairLinks (bumpLink acc A B) A B =
      match pairLinks acc A B with
      | [] => [{ source := A, target := B, type := "contains", value := some 1 }]
      | e :: rest => { e with value := some (e.value.getD 0 + 1) } :: rest := by
  intro acc
  induction acc with
  | nil => simp [pairLinks, bumpLink]
  | cons hd t ih =>
    by_cases h : hd.source = A ∧ hd.target = B
    · simp [pairLinks, bumpLink, h, List.filter_cons]
    · have hb : ¬ (hd.source == A && hd.target == B) = true := by
        simpa [Bool.and_eq_true, beq_iff_eq, not_and] using
          fun ha hbt => h ⟨ha, hbt⟩
      simp only [bumpLink, if_neg h]
      simp only [pairLinks, List.filter_cons, hb] at ih ⊢
      simpa using ih

/-- Bumping one pair leaves the links of any other pair unchanged. -/
theorem bump_pairLinks_ne {A B A2 B2 : String} (hne : ¬ (A = A2 ∧ B = B2)) :
    ∀ acc : List GLink, pairLinks (bumpLink acc A B) A2 B2 = pairLinks acc A2 B2 := by
  intro acc
  induction acc with
  | nil =>
    have : ¬ (A == A2 && B == B2) = true := by
      simpa [Bool.and_eq_true, beq_iff_eq, not_and] using fun ha hb => hne ⟨ha, hb⟩
    simp [pairLinks, bumpLink, List.filter_cons, this]
  | cons hd t ih =>
    by_cases h : hd.source = A ∧ hd.target = B
    · have hfilt : ¬ (hd.source == A2 && hd.target == B2) = true := by
        simp only [Bool.and_eq_true, beq_iff_eq, not_and]
        intro ha hb
        exact hne ⟨h.1 ▸ ha, h.2 ▸ hb⟩
      simp [pairLinks, bumpLink, h, List.filter_cons, hfilt, hne]
    · simp only [bumpLink, if_neg h]
      simp only [pairLinks, List.filter_cons] at ih ⊢
      by_cases h2 : (hd.source == A2 && hd.target == B2) = true <;> simp [h2, ih]

/-- Every link of a bumped accumulator is the fresh entry, an updated entry or
an old entry. -/
theorem bump_forall {P : GLink → Prop} {A B : String}
    (hnew : P { source := A, target := B, type := "contains", value := some 1 })
    (hupd : ∀ l, P l → P { l with value := some (l.value.getD 0 + 1) }) :
    ∀ acc : List GLink, (∀ l ∈ acc, P l) → ∀ l ∈ bumpLink acc A B, P l := by
  intro acc
  induction acc with
  | nil => intro _ l hl; simp [bumpLink] at hl; subst hl; exact hnew
  | cons hd t ih =>
    intro hall l hl
    by_cases h : hd.source = A ∧ hd.target = B
    · simp only [bumpLink, if_pos h, List.mem_cons] at hl
      rcases hl with rfl | hl
      · exact hupd hd (hall hd (by simp))
      · exact hall l (by simp [hl])
    · simp only [bumpLink, if_neg h, List.mem_cons] at hl
      rcases hl with rfl | hl
      · exact hall l (by simp)
      · exact ih (fun x hx => hall x (by simp [hx])) l hl

/-- Links surviving an aggregation step satisfy any property preserved by the
bump and holding for fresh cross-module entries. -/
theorem aggStep_forall {P : GLink → Prop} {mm : List (String × String)}
    (hnew : ∀ A B, A ≠ B →
      P { source := A, target := B, type := "contains", value := some 1 })
    (hupd : ∀ l, P l → P { l with value := some (l.value.getD 0 + 1) }) :
    ∀ (acc : List GLink) (x : GLink), (∀ l ∈ acc, P l) →
      ∀ l ∈ aggStep mm acc x, P l := by
  intro acc x hall l hl
  cases hs : lookupA mm x.source with
  | none =>
    have hstep : aggStep mm acc x = acc := by unfold aggStep; rw [hs]
    rw [hstep] at hl
    exact hall l hl
  | some sm =>
    cases ht : lookupA mm x.target with
    | none =>
      have hstep : aggStep mm acc x = acc := by unfold aggStep; rw [hs, ht]
      rw [hstep] at hl
      exact hall l hl
    | some tm =>
      have hstep : aggStep mm acc x = if sm ≠ tm then bumpLink acc sm tm else acc := by
        unfold aggStep; rw [hs, ht]
      rw [hstep] at hl
      by_cases hne : sm ≠ tm
      · rw [if_pos hne] at hl
        exact bump_forall (hnew sm tm hne) hupd acc hall l hl
      · rw [if_neg hne] at hl
        exact hall l hl

/-- Main aggregation invariant: folding the links onto an accumulator whose
values are all present adds, for each ordered pair of distinct modules, the
count of underlying links of that pair onto the value of its unique entry,
creating the entry at count one. -/
theorem agg_fold (mm : List (String × String)) (A B : String) (hAB : A ≠ B) :
    ∀ (ls : List GLink) (acc : List GLink),
      (∀ l ∈ acc, ∃ v, l.value = some v) →
      pairLinks (ls.foldl (aggStep mm) acc) A B =
        match pairLinks acc A B with
        | [] => if cntLinks mm ls A B = 0 then []
                else [{ source := A, target := B, type := "contains",
                        value := some (cntLinks mm ls A B) }]
        | e :: rest => { e with value := some (e.value.getD 0 + cntLinks mm ls A B) } :: rest
  := by
  intro ls
  induction ls with
  | nil =>
    intro acc hv
    simp only [List.foldl_nil]
    cases hp : pairLinks acc A B with
    | nil => simp [hp, cntLinks]
    | cons e rest =>
      have he : e ∈ acc := by
        have hmem : e ∈ pairLinks acc A B := by rw [hp]; simp
        exact List.mem_of_mem_filter hmem
      obtain ⟨v, hev⟩ := hv e he
      have hee : { e with value := some (e.value.getD 0) } = e := by
        cases e; simp_all
      simp [hp, cntLinks, hee]
  | cons x ls ih =>
    intro acc hv
    have hcnt : cntLinks mm (x :: ls) A B =
        (if (lookupA mm x.source == some A && lookupA mm x.target == some B) = true
         then cntLinks mm ls A B + 1 else cntLinks mm ls A B) := by
      simp only [cntLinks, List.filter_cons]
      split <;> simp [List.length_cons]
    have hv2 : ∀ l ∈ aggStep mm acc x, ∃ v, l.value = some v :=
      aggStep_forall (fun _ _ _ => ⟨1, rfl⟩)
        (fun l _ => ⟨l.value.getD 0 + 1, rfl⟩) acc x hv
    rw [List.foldl_cons, ih (aggStep mm acc x) hv2]
    cases hs : lookupA mm x.source with
    | none =>
      have hstep : aggStep mm acc x = acc := by unfold aggStep; rw [hs]
      have hpred : ¬ (lookupA mm x.source == some A && lookupA mm x.target == some B)
          = true := by simp [hs]
      rw [hstep, hcnt, if_neg hpred]
    | some sm =>
      cases ht : lookupA mm x.target with
      | none =>
        have hstep : aggStep mm acc x = acc := by unfold aggStep; rw [hs, ht]
        have hpred : ¬ (lookupA mm x.source == some A && lookupA mm x.target == some B)
            = true := by simp [hs, ht]
        rw [hstep, hcnt, if_neg hpred]
      | some tm =>
        have hstep : aggStep mm acc x = if sm ≠ tm then bumpLink acc sm tm else acc := by
          unfold aggStep; rw [hs, ht]
        rw [hstep]
        by_cases hne : sm ≠ tm
        · rw [if_pos hne]
          by_cases hpair : sm = A ∧ tm = B
          · obtain ⟨rfl, rfl⟩ := hpair
            have hpred : (lookupA mm x.source == some sm && lookupA mm x.target == some tm)
                = true := by simp [hs, ht]
            rw [hcnt, if_pos hpred]
            rw [bump_pairLinks_hit sm tm acc]
            cases hp : pairLinks acc sm tm with
            | nil => simp [Nat.add_comm]
            | cons e rest => simp [Nat.add_comm, Nat.add_assoc, Nat.add_left_comm]
          · have hpred : ¬ (lookupA mm x.source == some A && lookupA mm x.target == some B)
                = true := by
              simp only [hs, ht, Bool.and_eq_true, beq_iff_eq, Option.some.injEq, not_and]
              intro ha hb
              exact hpair ⟨ha, hb⟩
            rw [hcnt, if_neg hpred, bump_pairLinks_ne hpair acc]
        · rw [if_neg hne]
          push_neg at hne
          subst hne
          have hpred : ¬ (lookupA mm x.source == some A && lookupA mm x.target == some B)
              = true := by
            simp only [hs, ht, Bool.and_eq_true, beq_iff_eq, Option.some.injEq, not_and]
            intro ha hb
            exact hAB (ha ▸ hb ▸ rfl)
          rw [hcnt, if_neg hpred]

/-- Lookup after a map write. -/
theorem setAssoc_lookup (m : List (String × String)) (k v i : String) :
    lookupA (setAssoc m k v) i = if i = k then some v else lookupA m i := by
  induction m with
  | nil => simp [setAssoc, lookupA, eq_comm]
  | cons p t ih =>
    by_cases h : p.1 = k
    · subst h
      by_cases hi : p.1 = i
      · subst hi; simp [setAssoc, lookupA]
      · have hik : ¬ i = p.1 := fun hh => hi hh.symm
        simp [setAssoc, lookupA, hi, hik]
    · by_cases hi : p.1 = i
      · subst hi
        have hik : ¬ p.1 = k := h
        simp [setAssoc, lookupA, hik, lookupA, if_neg (fun hh : p.1 = k => h hh)]
      · simp [setAssoc, lookupA, h, hi, ih]

/-- Lookup through the node-to-module fold: the last registered node with a
given id wins, and absent ids fall through to the accumulator. -/
theorem moduleMap_fold_lookup : ∀ (ns : List GNode) (acc : List (String × String)) (i : String),
    lookupA (ns.foldl (fun acc n =>
        if jsTruthy n.path then setAssoc acc n.id (firstSeg (n.path.getD "")) else acc) acc) i =
      match ns.reverse.find? (fun n => n.id == i && jsTruthy n.path) with
      | some n => some (firstSeg (n.path.getD ""))
      | none => lookupA acc i := by
  intro ns
  induction ns with
  | nil => intro acc i; simp
  | cons n t ih =>
    intro acc i
    rw [List.foldl_cons, ih]
    have hrev : (n :: t).reverse.find? (fun n => n.id == i && jsTruthy n.path)
        = ((t.reverse.find? (fun n => n.id == i && jsTruthy n.path)).or
            ([n].find? (fun n => n.id == i && jsTruthy n.path))) := by
      rw [List.reverse_cons, List.find?_append]
    rw [hrev]
    cases hf : t.reverse.find? (fun n => n.id == i && jsTruthy n.path) with
    | some m => simp
    | none =>
      have hone : [n].find? (fun n => n.id == i && jsTruthy n.path)
          = if (n.id == i && jsTruthy n.path) = true then some n else none := by
        by_cases hc : (n.id == i && jsTruthy n.path) = true <;> simp [List.find?, hc]
      rw [hone]
      by_cases hp : (n.id == i && jsTruthy n.path) = true
      · have hand := hp
        rw [Bool.and_eq_true] at hand
        have hid : n.id = i := by simpa using hand.1
        simp [hp, hand.2, setAssoc_lookup, hid]
      · rw [if_neg hp]
        simp only [Option.or_none]
        by_cases htr : jsTruthy n.path = true
        · have hid : ¬ i = n.id := by
            intro h
            rw [htr, h] at hp
            simp at hp
          simp [htr, setAssoc_lookup, hid]
        · simp [htr]

/-- Nodes with nodup-mapped ids are determined by their id. -/
theorem nodup_id_inj {g : GraphData} (hN : (g.nodes.map GNode.id).Nodup)
    {a b : GNode} (ha : a ∈ g.nodes) (hb : b ∈ g.nodes) (h : a.id = b.id) : a = b :=
  List.inj_on_of_nodup_map hN ha hb h

/-- Characterization of the node-to-module map under unique node ids. -/
theorem modOf_iff {g : GraphData} (hN : (g.nodes.map GNode.id).Nodup) (i M : String) :
    ModOf g i = some M ↔
      ∃ n, n ∈ g.nodes ∧ n.id = i ∧ jsTruthy n.path = true
        ∧ firstSeg (n.path.getD "") = M := by
  unfold ModOf moduleMapOf
  rw [moduleMap_fold_lookup]
  constructor
  · intro h
    cases hf : g.nodes.reverse.find? (fun n => n.id == i && jsTruthy n.path) with
    | none => rw [hf] at h; simp [lookupA] at h
    | some n =>
      rw [hf] at h
      simp only [Option.some.injEq] at h
      have hmem := List.mem_of_find?_eq_some hf
      have hpred := List.find?_some hf
      simp only [Bool.and_eq_true, beq_iff_eq] at hpred
      exact ⟨n, by simpa using hmem, hpred.1, hpred.2, h⟩
  · intro ⟨n, hmem, hid, htr, hM⟩
    have hex : ∃ x ∈ g.nodes.reverse, (x.id == i && jsTruthy x.path) = true :=
      ⟨n, by simpa using hmem, by simp [hid, htr]⟩
    obtain ⟨m, hfind⟩ := Option.isSome_iff_exists.mp (List.find?_isSome.mpr hex)
    rw [hfind]
    have hmmem : m ∈ g.nodes := by simpa using List.mem_of_find?_eq_some hfind
    have hmpred := List.find?_some hfind
    simp only [Bool.and_eq_true, beq_iff_eq] at hmpred
    have : m = n := nodup_id_inj hN hmmem hmem (hmpred.1.trans hid.symm)
    simp [this, hM]

/-- A write only ever adds its own key to the key set. -/
theorem setAssoc_keys_mem : ∀ (m : List (String × String)) (k v k2 : String),
    k2 ∈ (setAssoc m k v).map (·.1) ↔ k2 ∈ m.map (·.1) ∨ k2 = k := by
  intro m k v
  induction m with
  | nil => intro k2; simp [setAssoc, eq_comm]
  | cons p t ih =>
    intro k2
    by_cases hq : p.1 = k
    · subst hq
      have hs : setAssoc (p :: t) p.1 v = (p.1, v) :: t := by
        unfold setAssoc
        simp
      rw [hs]
      simp only [List.map_cons, List.mem_cons]
      tauto
    · simp only [setAssoc, if_neg hq, List.map_cons, List.mem_cons, ih, or_assoc]

/-- Writing preserves the no-duplicate-keys property of the map. -/
theorem setAssoc_keys_nodup : ∀ {m : List (String × String)},
    (m.map (·.1)).Nodup → ∀ (k v : String), ((setAssoc m k v).map (·.1)).Nodup := by
  intro m
  induction m with
  | nil => intro _ k v; simp [setAssoc]
  | cons p t ih =>
    intro h k v
    simp only [List.map_cons, List.nodup_cons] at h
    by_cases hk : p.1 = k
    · simp only [setAssoc, if_pos hk, List.map_cons, List.nodup_cons]
      exact ⟨h.1, h.2⟩
    · simp only [setAssoc, if_neg hk, List.map_cons, List.nodup_cons]
      refine ⟨fun hmem => ?_, ih h.2 k v⟩
      rcases (setAssoc_keys_mem t k v p.1).mp hmem with hh | hh
      · exact h.1 hh
      · exact hk hh

/-- The key set of the aggregation's node-to-module map has no duplicates. -/
theorem moduleMapOf_keys_nodup (ns : List GNode) :
    ((moduleMapOf ns).map (·.1)).Nodup := by
  unfold moduleMapOf
  suffices h : ∀ acc : List (String × String), (acc.map (·.1)).Nodup →
      ((ns.foldl (fun acc n =>
        if jsTruthy n.path then setAssoc acc n.id (firstSeg (n.path.getD "")) else acc)
          acc).map (·.1)).Nodup by
    exact h [] (by simp)
  induction ns with
  | nil => intro acc hacc; simpa using hacc
  | cons n t ih =>
    intro acc hacc
    rw [List.foldl_cons]
    by_cases htr : jsTruthy n.path = true
    · simp only [htr, if_pos]
      exact ih _ (setAssoc_keys_nodup hacc _ _)
    · simp only [htr]
      simpa using ih _ hacc

/-- In a map without duplicate keys, membership of a pair is lookup. -/
theorem lookup_mem_iff : ∀ {m : List (String × String)}, ((m.map (·.1)).Nodup) →
    ∀ (k v : String), ((k, v) ∈ m ↔ lookupA m k = some v) := by
  intro m
  induction m with
  | nil => intro _ k v; simp [lookupA]
  | cons p t ih =>
    intro h k v
    simp only [List.map_cons, List.nodup_cons] at h
    constructor
    · intro hm
      rcases List.mem_cons.mp hm with rfl | hm
      · simp [lookupA]
      · have hk : p.1 ≠ k := by
          intro hh
          exact h.1 (hh ▸ List.mem_map.mpr ⟨(k, v), hm, rfl⟩)
        simpa [lookupA, hk] using (ih h.2 k v).mp hm
    · intro hl
      by_cases hk : p.1 = k
      · subst hk
        have hself : lookupA (p :: t) p.1 = some p.2 := by unfold lookupA; simp
        obtain rfl : p.2 = v := by simpa using hself.symm.trans hl
        exact List.mem_cons.mpr (Or.inl (by cases p; rfl))
      · simp only [lookupA, if_neg hk] at hl
        exact List.mem_cons.mpr (Or.inr ((ih h.2 k v).mpr hl))

/-- A value of the map is the lookup of some key. -/
theorem mem_values_iff {m : List (String × String)} (h : (m.map (·.1)).Nodup) (v : String) :
    v ∈ m.map (·.2) ↔ ∃ k, lookupA m k = some v := by
  constructor
  · intro hv
    obtain ⟨p, hp, rfl⟩ := List.mem_map.mp hv
    exact ⟨p.1, (lookup_mem_iff h p.1 p.2).mp hp⟩
  · intro ⟨k, hk⟩
    exact List.mem_map.mpr ⟨(k, v), (lookup_mem_iff h k v).mpr hk, rfl⟩

/-- Set-style deduplication keeps exactly the members. -/
theorem dedupF_mem : ∀ (l : List String) (x : String), x ∈ dedupF l ↔ x ∈ l := by
  intro l
  induction l with
  | nil => intro x; simp [dedupF]
  | cons y t ih =>
    intro x
    simp only [dedupF, List.mem_cons, List.mem_filter, ih]
    constructor
    · rintro (rfl | ⟨hm, _⟩)
      · exact Or.inl rfl
      · exact Or.inr hm
    · rintro (rfl | hm)
      · exact Or.inl rfl
      · by_cases hx : x = y
        · exact Or.inl hx
        · exact Or.inr ⟨hm, by simpa using hx⟩

/-- Set-style deduplication yields no duplicates. -/
theorem dedupF_nodup : ∀ l : List String, (dedupF l).Nodup := by
  intro l
  induction l with
  | nil => simp [dedupF]
  | cons y t ih =>
    simp only [dedupF, List.nodup_cons]
    refine ⟨fun hm => ?_, ih.filter _⟩
    have := (List.mem_filter.mp hm).2
    simp at this

/-- Mapping the module node constructor and then taking ids is the identity. -/
theorem map_id_of_mk (l : List String) :
    (l.map (fun m =>
      ({ id := m, name := m, type := "module", val := 10,
         color := some "#FF9800" } : GNode))).map GNode.id = l := by
  induction l with
  | nil => rfl
  | cons x t ih => simp only [List.map_cons, ih]

/-- Splitting a colon-free string yields the string itself. -/
theorem splitSep_nosep (s : List Char) (h : ':' ∉ s) : splitSep s = [s] := by
  induction s with
  | nil => rfl
  | cons c t ih =>
    simp only [List.mem_cons, not_or] at h
    have ht := ih h.2
    unfold splitSep
    split
    · rename_i heq
      exact absurd heq (by simp)
    · rename_i t2 heq
      injection heq with h1 _
      exact absurd h1.symm h.1
    · rename_i c2 t2 heq
      injection heq with h1 h2
      subst h1
      subst h2
      rw [ht]

/-- Splitting past a leading colon-free segment peels it off. -/
theorem splitSep_sep (s rest : List Char) (h : ':' ∉ s) :
    splitSep (s ++ ':' :: ':' :: rest) = s :: splitSep rest := by
  induction s with
  | nil => rfl
  | cons c t ih =>
    simp only [List.mem_cons, not_or] at h
    have ht := ih h.2
    rw [List.cons_append]
    conv_lhs => unfold splitSep
    split
    · rename_i heq
      exact absurd heq (by simp)
    · rename_i t2 heq
      injection heq with h1 _
      exact absurd h1.symm h.1
    · rename_i c2 t2 heq
      injection heq with h1 h2
      subst h1
      subst h2
      rw [ht]

/-- The separator occurs in a string exactly when two consecutive colons occur
at some offset. -/
theorem hasSep_iff_occ (s : List Char) :
    hasSep s = true ↔ ∃ k, [':', ':'].isPrefixOf (s.drop k) := by
  induction s with
  | nil =>
    simp only [hasSep]
    constructor
    · intro h; exact absurd h (by simp)
    · intro ⟨k, hk⟩
      simp [List.isPrefixOf] at hk
  | cons a t ih =>
    cases t with
    | nil =>
      simp only [hasSep]
      constructor
      · intro h; exact absurd h (by simp)
      · intro ⟨k, hk⟩
        rcases k with _ | k <;> simp [List.isPrefixOf] at hk
    | cons b t2 =>
      simp only [hasSep, Bool.or_eq_true, Bool.and_eq_true, beq_iff_eq]
      constructor
      · rintro (⟨rfl, rfl⟩ | h)
        · exact ⟨0, by simp [List.isPrefixOf]⟩
        · obtain ⟨k, hk⟩ := ih.mp h
          exact ⟨k + 1, by simpa using hk⟩
      · rintro ⟨k, hk⟩
        rcases k with _ | k
        · simp only [List.drop_zero] at hk
          have h1 : ':' = a ∧ [':'].isPrefixOf (b :: t2) := by
            simpa [List.isPrefixOf] using hk
          have h2 : ':' = b := by
            simpa [List.isPrefixOf] using h1.2
          exact Or.inl ⟨h1.1.symm, h2.symm⟩
        · exact Or.inr (ih.mpr ⟨k, by simpa using hk⟩)

/-- An occurrence guarantees that findLast succeeds. -/
theorem findLast_exists {pat l : List Char} {j : Nat} (hj : pat.isPrefixOf (l.drop j)) :
    ∃ k, findLast pat l = some k := by
  induction l generalizing j with
  | nil =>
    have hpe : pat = [] := by
      simp only [List.drop_nil] at hj
      cases pat with
      | nil => rfl
      | cons p ps => simp [List.isPrefixOf] at hj
    simp [findLast, hpe]
  | cons c t ih =>
    rcases j with _ | j
    · unfold findLast
      cases hu : findLast pat t with
      | some k2 => exact ⟨k2 + 1, rfl⟩
      | none => exact ⟨0, by simp_all⟩
    · obtain ⟨k2, hk2⟩ := ih (by simpa using hj)
      unfold findLast
      rw [hk2]
      exact ⟨k2 + 1, rfl⟩

/-- A successful findLast on a nonempty pattern is maximal among occurrences. -/
theorem findLast_max {pat l : List Char} {k : Nat} (hpat : pat ≠ [])
    (h : findLast pat l = some k) :
    ∀ j, pat.isPrefixOf (l.drop j) → j ≤ k := by
  induction l generalizing k with
  | nil =>
    intro j hj
    unfold findLast at h
    have : ¬ pat.isEmpty = true := by simpa using hpat
    simp [this] at h
  | cons c t ih =>
    intro j hj
    unfold findLast at h
    cases hf : findLast pat t with
    | some k0 =>
      rw [hf] at h
      simp only [Option.some.injEq] at h
      subst h
      rcases j with _ | j
      · omega
      · have := ih hf j (by simpa using hj)
        omega
    | none =>
      rw [hf] at h
      by_cases hp : pat.isPrefixOf (c :: t) <;> simp [hp] at h
      subst h
      rcases j with _ | j
      · omega
      · exfalso
        obtain ⟨k2, hk2⟩ := findLast_exists (l := t) (j := j) (by simpa using hj)
        rw [hf] at hk2
        exact absurd hk2 (by simp)

/-- Unfolding equation for joining a list with a nonempty tail. -/
theorem joinSep_cons (s : List Char) {t : List (List Char)} (ht : t ≠ []) :
    joinSep (s :: t) = s ++ ':' :: ':' :: joinSep t := by
  cases t with
  | nil => exact absurd rfl ht
  | cons u t2 => rfl

/-- Joining after appending a final segment. -/
theorem joinSep_snoc (y : List Char) : ∀ (xs : List (List Char)), xs ≠ [] →
    joinSep (xs ++ [y]) = joinSep xs ++ ':' :: ':' :: y := by
  intro xs
  induction xs with
  | nil => intro h; exact absurd rfl h
  | cons x t ih =>
    intro _
    cases t with
    | nil => rfl
    | cons u t2 =>
      rw [List.cons_append, joinSep_cons x (by simp), joinSep_cons x (by simp),
        ih (by simp)]
      simp

/-- The head of a join of well-formed segments is not a colon. -/
theorem joinSep_head_ne_colon {t : List (List Char)}
    (hwf : ∀ s ∈ t, s ≠ [] ∧ ':' ∉ s) (ht : t ≠ []) :
    (joinSep t).head? ≠ some ':' := by
  cases t with
  | nil => exact absurd rfl ht
  | cons u t2 =>
    have hu := hwf u (by simp)
    cases hu2 : u with
    | nil => exact absurd hu2 hu.1
    | cons a u3 =>
      have ha : a ≠ ':' := by
        intro h
        exact hu.2 (by simp [hu2, h])
      subst hu2
      cases t2 with
      | nil =>
        simpa [joinSep] using fun h => ha h
      | cons v t3 =>
        rw [joinSep_cons (a :: u3) (by simp)]
        simpa using fun h => ha h

/-- Appending a separator anywhere makes hasSep true. -/
theorem hasSep_append_sep (x y : List Char) :
    hasSep (x ++ ':' :: ':' :: y) = true :=
  (hasSep_iff_occ _).mpr ⟨x.length, by simp [List.drop_left, List.isPrefixOf]⟩

/-- Factorization step: a separator-split of a string starting with one
well-formed segment either splits exactly after the segment or inside the
remainder. -/
theorem sep_factor_aux : ∀ (s c p rest : List Char), ':' ∉ s →
    rest.head? ≠ some ':' →
    s ++ ':' :: ':' :: rest = c ++ ':' :: ':' :: p →
    (c = s ∧ p = rest) ∨
      (∃ c2, c = s ++ ':' :: ':' :: c2 ∧ rest = c2 ++ ':' :: ':' :: p) := by
  intro s
  induction s with
  | nil =>
    intro c p rest _ hrest heq
    cases c with
    | nil =>
      simp only [List.nil_append] at heq
      injection heq with _ h1
      injection h1 with _ h2
      exact Or.inl ⟨rfl, h2.symm⟩
    | cons x c2 =>
      simp only [List.nil_append, List.cons_append] at heq
      injection heq with hx h1
      subst hx
      cases c2 with
      | nil =>
        simp only [List.nil_append] at h1
        injection h1 with _ h2
        exact absurd (show rest.head? = some ':' by simp [h2]) hrest
      | cons y c3 =>
        simp only [List.cons_append] at h1
        injection h1 with hy h2
        subst hy
        exact Or.inr ⟨c3, by simp, h2⟩
  | cons a s2 ih =>
    intro c p rest hs hrest heq
    simp only [List.mem_cons, not_or] at hs
    cases c with
    | nil =>
      simp only [List.cons_append, List.nil_append] at heq
      injection heq with ha _
      exact absurd ha.symm hs.1
    | cons x c2 =>
      simp only [List.cons_append] at heq
      injection heq with hx h1
      subst hx
      rcases ih c2 p rest hs.2 hrest h1 with ⟨rfl, rfl⟩ | ⟨c3, rfl, hr⟩
      · exact Or.inl ⟨rfl, rfl⟩
      · exact Or.inr ⟨c3, by simp, hr⟩

/-- Unique factorization of a well-formed join at its last separator: if the
part after the separator has no further separator, the cut is exactly
before the last segment. -/
theorem joinSep_factor : ∀ (segs : List (List Char)) (c p : List Char),
    (∀ s ∈ segs, s ≠ [] ∧ ':' ∉ s) → segs ≠ [] →
    joinSep segs = c ++ ':' :: ':' :: p → hasSep p = false →
    c = joinSep segs.dropLast ∧ segs.getLast? = some p ∧ 2 ≤ segs.length := by
  intro segs
  induction segs with
  | nil => intro c p _ h; exact absurd rfl h
  | cons s t ih =>
    intro c p hwf _ heq hp
    cases t with
    | nil =>
      exfalso
      simp only [joinSep] at heq
      have := hwf s (by simp)
      exact this.2 (heq ▸ (by simp : ':' ∈ c ++ ':' :: ':' :: p))
    | cons u t2 =>
      rw [joinSep_cons s (by simp)] at heq
      have hwf2 : ∀ x ∈ u :: t2, x ≠ [] ∧ ':' ∉ x :=
        fun x hx => hwf x (List.mem_cons_of_mem s hx)
      have hhead : (joinSep (u :: t2)).head? ≠ some ':' :=
        joinSep_head_ne_colon hwf2 (by simp)
      have hs := hwf s (by simp)
      rcases sep_factor_aux s c p (joinSep (u :: t2)) hs.2 hhead heq with
        ⟨rfl, hpj⟩ | ⟨c3, rfl, hr⟩
      · cases t2 with
        | nil =>
          refine ⟨?_, ?_, by simp⟩
          · simp [joinSep]
          · simp only [joinSep] at hpj
            simp [hpj]
        | cons v t3 =>
          exfalso
          have hsep : hasSep p = true := by
            rw [hpj]
            exact hasSep_append_sep _ _
          rw [hsep] at hp
          exact absurd hp (by simp)
      · obtain ⟨hc3, hlast, hlen⟩ := ih c3 p hwf2 (by simp) hr hp
        subst hc3
        have hne : (u :: t2).dropLast ≠ [] := by
          cases t2 with
          | nil => simp at hlen
          | cons v t3 => simp
        constructor
        · have : (s :: u :: t2).dropLast = s :: (u :: t2).dropLast := by
            simp
          rw [this, joinSep_cons s hne]
        · exact ⟨by simpa using hlast, by simp⟩

/-- Splitting a single character always yields that singleton. -/
theorem splitSep_single (c : Char) : splitSep [c] = [[c]] := by
  unfold splitSep
  split
  · rename_i heq
    exact absurd heq (by simp)
  · rename_i t2 heq
    exact absurd heq (by simp)
  · rename_i c2 t2 heq
    injection heq with h1 h2
    subst h1
    subst h2
    rfl

/-- Splitting off a leading separator. -/
theorem splitSep_sepHead (t2 : List Char) :
    splitSep (':' :: ':' :: t2) = [] :: splitSep t2 := by
  simpa using splitSep_sep [] t2 (by simp)

/-- Splitting a two-character-or-longer string that does not start with the
separator. -/
theorem splitSep_consNe (c d : Char) (t2 : List Char) (h : ¬ (c = ':' ∧ d = ':')) :
    splitSep (c :: d :: t2) =
      match splitSep (d :: t2) with
      | [] => [[c]]
      | h :: r => (c :: h) :: r := by
  conv_lhs => unfold splitSep
  split
  · rename_i heq
    exact absurd heq (by simp)
  · rename_i t3 heq
    injection heq with h1 h2
    injection h2 with h3 _
    exact absurd ⟨h1, h3⟩ h
  · rename_i c2 t3 heq
    injection heq with h1 h2
    subst h1
    rw [h2]

/-- Core structural facts about splitSep: the result is nonempty, no part
contains the separator, and the first part is empty or starts with the
input's first character. -/
theorem splitSep_props : ∀ (n : Nat) (s : List Char), s.length ≤ n →
    splitSep s ≠ [] ∧
    (∀ p ∈ splitSep s, hasSep p = false) ∧
    (∀ h r, splitSep s = h :: r → h = [] ∨ h.head? = s.head?) := by
  intro n
  induction n with
  | zero =>
    intro s hs
    have : s = [] := List.length_eq_zero.mp (by omega)
    subst this
    refine ⟨by simp [splitSep], ?_, ?_⟩
    · intro p hp
      simp only [splitSep, List.mem_singleton] at hp
      simp [hp, hasSep]
    · intro h r hh
      simp only [splitSep, List.cons.injEq] at hh
      exact Or.inl hh.1.symm
  | succ n ih =>
    intro s hs
    cases s with
    | nil => exact ih [] (by simp)
    | cons c t =>
      cases t with
      | nil =>
        rw [splitSep_single c]
        refine ⟨by simp, ?_, ?_⟩
        · intro p hp
          simp only [List.mem_singleton] at hp
          simp [hp, hasSep]
        · intro h r hh
          injection hh with h1 _
          exact Or.inr (by rw [← h1])
      | cons d t2 =>
        by_cases hcd : c = ':' ∧ d = ':'
        · obtain ⟨rfl, rfl⟩ := hcd
          rw [splitSep_sepHead t2]
          obtain ⟨hne2, hparts2, _⟩ := ih t2 (by simp at hs; omega)
          refine ⟨by simp, ?_, ?_⟩
          · intro p hp
            rcases List.mem_cons.mp hp with rfl | hp
            · rfl
            · exact hparts2 p hp
          · intro h r hh
            injection hh with h1 _
            exact Or.inl h1.symm
        · rw [splitSep_consNe c d t2 hcd]
          obtain ⟨hne2, hparts2, hheads2⟩ := ih (d :: t2) (by simp at hs ⊢; omega)
          cases hsp : splitSep (d :: t2) with
          | nil => exact absurd hsp hne2
          | cons h0 r0 =>
            refine ⟨by simp, ?_, ?_⟩
            · intro p hp
              rcases List.mem_cons.mp hp with rfl | hp
              · cases hh0 : h0 with
                | nil => rfl
                | cons e h0t =>
                  have hsub : hasSep (e :: h0t) = false := by
                    rw [← hh0]
                    exact hparts2 h0 (by rw [hsp]; simp)
                  have hhead : e = d := by
                    rcases hheads2 h0 r0 hsp with hemp | hh
                    · rw [hemp] at hh0; exact absurd hh0.symm (by simp)
                    · rw [hh0] at hh
                      simpa using hh
                  have hnc : ¬ (c = ':' ∧ e = ':') := by
                    intro ⟨hc1, he1⟩
                    refine hcd ⟨hc1, ?_⟩
                    rw [← hhead]
                    exact he1
                  have hred : hasSep (c :: e :: h0t)
                      = ((c == ':' && e == ':') || hasSep (e :: h0t)) := rfl
                  rw [hred, hsub, Bool.or_false]
                  cases hcb : (c == ':') <;> cases heb : (e == ':') <;> simp_all
              · exact hparts2 p (by rw [hsp]; exact List.mem_cons_of_mem h0 hp)
            · intro h r hh
              injection hh with h1 _
              exact Or.inr (by rw [← h1]; rfl)

/-- Every part of a separator split is separator-free. -/
theorem splitSep_parts_nosep (s : List Char) : ∀ p ∈ splitSep s, hasSep p = false :=
  (splitSep_props s.length s le_rfl).2.1

/-- Splitting is a left inverse of joining for colon-free segments. -/
theorem splitSep_join : ∀ (segs : List (List Char)), (∀ s ∈ segs, ':' ∉ s) →
    segs ≠ [] → splitSep (joinSep segs) = segs := by
  intro segs
  induction segs with
  | nil => intro _ h; exact absurd rfl h
  | cons s t ih =>
    intro hwf _
    cases t with
    | nil => exact splitSep_nosep s (hwf s (by simp))
    | cons u t2 =>
      rw [joinSep_cons s (by simp), splitSep_sep s _ (hwf s (by simp)),
        ih (fun x hx => hwf x (List.mem_cons_of_mem s hx)) (by simp)]

/-- The zero-based substring of a natural bound within range is take. -/
theorem jsSubstring_zero (l : List Char) (k : Nat) (hk : k ≤ l.length) :
    jsSubstring l 0 (k : Int) = l.take k := by
  simp [jsSubstring, Int.toNat_ofNat, hk, Nat.min_eq_left]

/-- The last separator of a well-formed join of at least two segments sits
exactly after the join of all but the last segment, and the substring up to
it is that join. -/
theorem lastSep_of_join {segs : List (List Char)}
    (hwf : ∀ s ∈ segs, s ≠ [] ∧ ':' ∉ s) (hlen : 2 ≤ segs.length) :
    jsLastIndexOf (joinSep segs) [':', ':'] = ((joinSep segs.dropLast).length : Int) ∧
    jsSubstring (joinSep segs) 0 (jsLastIndexOf (joinSep segs) [':', ':'])
      = joinSep segs.dropLast := by
  have hne : segs ≠ [] := by intro h; rw [h] at hlen; simp at hlen
  have hdne : segs.dropLast ≠ [] := by
    intro h
    have := congrArg List.length h
    simp at this
    omega
  have hdecomp : joinSep segs = joinSep segs.dropLast ++ ':' :: ':' :: segs.getLast hne := by
    conv_lhs => rw [← List.dropLast_append_getLast hne]
    exact joinSep_snoc _ _ hdne
  have hocc : [':', ':'].isPrefixOf
      ((joinSep segs).drop (joinSep segs.dropLast).length) = true := by
    rw [hdecomp, List.drop_left]
    simp [List.isPrefixOf]
  obtain ⟨k, hk⟩ := findLast_exists hocc
  have hmax := findLast_max (by simp) hk
  have hkocc := findLast_isPre hk
  have hklt : k < (joinSep segs).length := by
    by_contra hge
    push_neg at hge
    rw [List.drop_eq_nil_of_le hge] at hkocc
    simp [List.isPrefixOf] at hkocc
  have hdropk : (joinSep segs).drop k = ':' :: ':' :: (joinSep segs).drop (k + 2) := by
    obtain ⟨t, ht⟩ := List.isPrefixOf_iff_prefix.mp hkocc
    have ht2 : t = ((joinSep segs).drop k).drop 2 := by rw [← ht]; rfl
    rw [← ht, ht2, List.drop_drop]
    norm_num
  have hsplit : joinSep segs = (joinSep segs).take k ++ ':' :: ':' :: (joinSep segs).drop (k + 2) := by
    conv_lhs => rw [← List.take_append_drop k (joinSep segs)]
    rw [hdropk]
  have hnosep : hasSep ((joinSep segs).drop (k + 2)) = false := by
    by_contra hcon
    rw [Bool.not_eq_false] at hcon
    obtain ⟨j, hj⟩ := (hasSep_iff_occ _).mp hcon
    rw [List.drop_drop] at hj
    have := hmax (k + 2 + j) hj
    omega
  obtain ⟨hc, _, _⟩ := joinSep_factor segs _ _ hwf hne hsplit hnosep
  have hklen : ((joinSep segs).take k).length = k := by
    simp [Nat.min_eq_left (le_of_lt hklt)]
  have hkval : k = (joinSep segs.dropLast).length := by
    rw [← hklen, hc]
  constructor
  · simp only [jsLastIndexOf, hk, hkval]
  · simp only [jsLastIndexOf, hk]
    rw [hkval, jsSubstring_zero _ _ (by rw [← hkval]; exact le_of_lt hklt), ← hkval, hc]

/-- Joining one more segment onto a nonempty segment list. -/
theorem pathJoin_snoc {xs : List String} (y : String) (hxs : xs ≠ []) :
    pathJoin (xs ++ [y]) = pathJoin xs ++ "::" ++ y := by
  apply strExt
  have hmap : (xs ++ [y]).map String.data = xs.map String.data ++ [y.data] := by simp
  have hne : xs.map String.data ≠ [] := by simpa using hxs
  simp only [pathJoin, hmap, joinSep_snoc y.data _ hne, String.data_append]
  simp

/-- A singleton join is its segment. -/
theorem pathJoin_single (s : String) : pathJoin [s] = s := by
  apply strExt
  rfl

/-- A two-colon extension is never the empty string. -/
theorem extend_ne_empty (cur part : String) : cur ++ "::" ++ part ≠ "" := by
  intro h
  have := congrArg String.data h
  simp [String.data_append] at this

/-- Presence of a key is the existence of its entry. -/
theorem mmHas_exists {m : List MEntry} {k : String} :
    mmHas m k = true ↔ ∃ e, e ∈ m ∧ e.key = k := by
  simp [mmHas, List.any_eq_true, beq_iff_eq]

/-- Key presence across an appended entry. -/
theorem mmHas_append (m : List MEntry) (e : MEntry) (k : String) :
    mmHas (m ++ [e]) k = (mmHas m k || (e.key == k)) := by
  simp [mmHas, List.any_append]

/-- The push function preserves the key of every entry. -/
theorem pushFun_key (k0 : String) (c : MChild) (e : MEntry) :
    ((fun e => if e.key = k0 then { e with children := e.children ++ [c] } else e) e).key
      = e.key := by
  by_cases h : e.key = k0 <;> simp [h]

/-- Searching a key after a push finds the pushed image of the original entry. -/
theorem find?_push (m : List MEntry) (k0 k : String) (c : MChild) :
    (mmPush m k0 c).find? (fun e => e.key == k)
      = (m.find? (fun e => e.key == k)).map
          (fun e => if e.key = k0 then { e with children := e.children ++ [c] } else e) := by
  induction m with
  | nil => rfl
  | cons e t ih =>
    have h1 := pushFun_key k0 c e
    by_cases hk : e.key = k
    · simp only [mmPush, List.map_cons, List.find?, h1]
      rw [show (e.key == k) = true by simp [hk]]
      rfl
    · simp only [mmPush, List.map_cons, List.find?, h1]
      rw [show (e.key == k) = false by simp [hk]]
      simpa [mmPush] using ih

/-- Pushing a child changes no key. -/
theorem mmHas_push (m : List MEntry) (k0 : String) (c : MChild) (k : String) :
    mmHas (mmPush m k0 c) k = mmHas m k := by
  unfold mmHas mmPush
  rw [List.any_map]
  induction m with
  | nil => rfl
  | cons e t ih =>
    simp only [List.any_cons, ih, Function.comp]
    rw [pushFun_key k0 c e]

/-- Pushing a child changes no key list. -/
theorem entKeys_push (m : List MEntry) (k0 : String) (c : MChild) :
    entKeys (mmPush m k0 c) = entKeys m := by
  unfold entKeys mmPush
  rw [List.map_map]
  induction m with
  | nil => rfl
  | cons e t ih =>
    simp only [List.map_cons, ih, Function.comp]
    rw [pushFun_key k0 c e]

/-- Children are preserved when an entry is appended. -/
theorem mmChildren_append_mono {m : List MEntry} {k : String} {c : MChild}
    (e : MEntry) (h : c ∈ mmChildren m k) : c ∈ mmChildren (m ++ [e]) k := by
  unfold mmChildren at h ⊢
  cases hf : m.find? (fun e2 => e2.key == k) with
  | none => rw [hf] at h; simp at h
  | some e0 =>
    rw [hf] at h
    rw [List.find?_append, hf]
    simpa using h

/-- Membership in children survives a push anywhere. -/
theorem mmChildren_push_mono {m : List MEntry} {k : String} {c : MChild}
    (k0 : String) (c2 : MChild) (h : c ∈ mmChildren m k) :
    c ∈ mmChildren (mmPush m k0 c2) k := by
  unfold mmChildren at h ⊢
  rw [find?_push]
  cases hf : m.find? (fun e2 => e2.key == k) with
  | none => rw [hf] at h; simp at h
  | some e0 =>
    rw [hf] at h
    by_cases he0 : e0.key = k0 <;> simp [he0] <;> simp at h
    · exact Or.inl h
    · exact h

/-- The pushed child lands in the children of its key. -/
theorem mmChildren_push_self {m : List MEntry} {k0 : String}
    (hk : mmHas m k0 = true) (c : MChild) :
    c ∈ mmChildren (mmPush m k0 c) k0 := by
  unfold mmChildren
  rw [find?_push]
  obtain ⟨e0, he0, hep⟩ : ∃ e0, m.find? (fun e2 => e2.key == k0) = some e0 ∧ e0.key = k0 := by
    unfold mmHas at hk
    rw [List.any_eq_true] at hk
    obtain ⟨e1, he1, hp⟩ := hk
    cases hf : m.find? (fun e2 => e2.key == k0) with
    | none =>
      exact absurd hp (by simpa using List.find?_eq_none.mp hf e1 he1)
    | some e2 =>
      exact ⟨e2, rfl, by simpa using List.find?_some hf⟩
  rw [he0]
  simp [hep]

/-- With unique keys, the children of a key are its entry's children. -/
theorem mmChildren_eq {m : List MEntry} (hnd : (entKeys m).Nodup)
    {e : MEntry} (he : e ∈ m) : mmChildren m e.key = e.children := by
  unfold mmChildren
  induction m with
  | nil => simp at he
  | cons e0 t ih =>
    simp only [entKeys, List.map_cons, List.nodup_cons] at hnd
    rcases List.mem_cons.mp he with rfl | hm
    · simp [List.find?]
    · have hne : e0.key ≠ e.key := by
        intro hh
        exact hnd.1 (hh ▸ List.mem_map.mpr ⟨e, hm, rfl⟩)
      have : (e0 :: t).find? (fun e2 => e2.key == e.key)
          = t.find? (fun e2 => e2.key == e.key) := by
        simp only [List.find?]
        rw [show (e0.key == e.key) = false by simp [hne]]
      rw [this]
      exact ih hnd.2 hm

/-- A string with nonempty data is not the empty string. -/
theorem str_ne_empty {s : String} (h : s.data ≠ []) : s ≠ "" := by
  intro he
  exact h (by rw [he])

/-- Rebuilding a string from its data is the identity. -/
theorem strMkData (s : String) : (⟨s.data⟩ : String) = s := by
  cases s
  rfl

/-- Mapping to data and rebuilding gives back the segment list. -/
theorem map_mk_data (l : List String) :
    (l.map String.data).map (fun d => (⟨d⟩ : String)) = l := by
  induction l with
  | nil => rfl
  | cons s t ih => simp [ih, strMkData]

/-- JS truthiness of a nonempty string option. -/
theorem jsTruthy_some {s : String} (h : s ≠ "") : jsTruthy (some s) = true := by
  simp only [jsTruthy, Bool.not_eq_true']
  exact Bool.eq_false_iff.mpr (fun hc => h ((String.isEmpty_iff s).mp hc))

/-- A colon-free string has no separator. -/
theorem nosep_of_nocolon {l : List Char} (h : ':' ∉ l) : hasSep l = false := by
  by_contra hc
  rw [Bool.not_eq_false] at hc
  obtain ⟨k, hk⟩ := (hasSep_iff_occ l).mp hc
  have hcol : ':' ∈ l.drop k := by
    obtain ⟨t, ht⟩ := List.isPrefixOf_iff_prefix.mp hk
    rw [← ht]
    simp
  exact h (List.mem_of_mem_drop hcol)

/-- A present key is among the record's keys. -/
theorem mem_entKeys_of_mmHas {m : List MEntry} {k : String} (h : mmHas m k = true) :
    k ∈ entKeys m := by
  obtain ⟨e, he, hk⟩ := mmHas_exists.mp h
  subst hk
  exact List.mem_map_of_mem _ he

/-- An absent key is not among the record's keys. -/
theorem not_mem_entKeys_of_mmHas_false {m : List MEntry} {k : String}
    (h : mmHas m k = false) : k ∉ entKeys m := by
  intro hm
  obtain ⟨e, he, hk⟩ := List.mem_map.mp hm
  have h2 := mmHas_exists.mpr ⟨e, he, hk⟩
  rw [h2] at h
  exact absurd h (by simp)

/-- Keys of an appended record. -/
theorem entKeys_append (m : List MEntry) (e : MEntry) :
    entKeys (m ++ [e]) = entKeys m ++ [e.key] := by
  simp [entKeys]

/-- A present key is found by the entry search. -/
theorem find?_of_mmHas {m : List MEntry} {k : String} (h : mmHas m k = true) :
    ∃ e, m.find? (fun e2 => e2.key == k) = some e ∧ e ∈ m ∧ e.key = k := by
  unfold mmHas at h
  rw [List.any_eq_true] at h
  obtain ⟨e1, he1, hp⟩ := h
  cases hf : m.find? (fun e2 => e2.key == k) with
  | none => exact absurd hp (by simpa using List.find?_eq_none.mp hf e1 he1)
  | some e2 =>
    exact ⟨e2, rfl, List.mem_of_find?_eq_some hf, by simpa using List.find?_some hf⟩

/-- A child of a key comes from an entry of the record with that key. -/
theorem mmChildren_mem_entry {m : List MEntry} {k : String} {c : MChild}
    (h : c ∈ mmChildren m k) : ∃ e ∈ m, e.key = k ∧ c ∈ e.children := by
  unfold mmChildren at h
  cases hf : m.find? (fun e2 => e2.key == k) with
  | none => rw [hf] at h; simp at h
  | some e =>
    rw [hf] at h
    exact ⟨e, List.mem_of_find?_eq_some hf, by simpa using List.find?_some hf, h⟩

/-- The record invariant survives pushing a child onto any key. -/
theorem INVR_push {m : List MEntry} (hinv : INVR m) (k : String) (c : MChild) :
    INVR (mmPush m k c) := by
  intro e' he' hsep
  rw [mmPush] at he'
  obtain ⟨e, he, hfe⟩ := List.mem_map.mp he'
  have hkey : e'.key = e.key := by rw [← hfe]; exact pushFun_key k c e
  rw [hkey] at hsep
  obtain ⟨c2, p, hfact, hp, e2, he2, hk2, href⟩ := hinv e he hsep
  have hm : (fun e3 => if e3.key = k then { e3 with children := e3.children ++ [c] } else e3) e2
      ∈ mmPush m k c := by
    rw [mmPush]
    exact List.mem_map_of_mem _ he2
  by_cases h3 : e2.key = k
  · exact ⟨c2, p, by rw [hkey]; exact hfact, hp, { e2 with children := e2.children ++ [c] },
      by simpa [h3] using hm, hk2, by rw [hkey]; exact List.mem_append_left _ href⟩
  · exact ⟨c2, p, by rw [hkey]; exact hfact, hp, e2, by simpa [h3] using hm, hk2,
      by rw [hkey]; exact href⟩

/-- The record invariant survives appending a separator-free key. -/
theorem INVR_append {m : List MEntry} (hinv : INVR m) {e0 : MEntry}
    (h0 : hasSep e0.key.data = false) : INVR (m ++ [e0]) := by
  intro e he hsep
  rcases List.mem_append.mp he with hm | h1
  · obtain ⟨c, p, hf, hp, e2, he2, hk, hr⟩ := hinv e hm hsep
    exact ⟨c, p, hf, hp, e2, List.mem_append_left _ he2, hk, hr⟩
  · have he0 : e = e0 := by simpa using h1
    rw [he0, h0] at hsep
    exact absurd hsep (by simp)

/-- Data of a join of at least two segments. -/
theorem pathJoin_data_cons (s0 : String) (rest : List String) (hr : rest ≠ []) :
    (pathJoin (s0 :: rest)).data = s0.data ++ ':' :: ':' :: joinSep (rest.map String.data) := by
  show joinSep (s0.data :: rest.map String.data) = _
  exact joinSep_cons _ (by simpa using hr)

/-- The join of nonempty segments is a nonempty string. -/
theorem pathJoin_ne_empty {segs : List String} (hne : segs ≠ [])
    (hwf : ∀ s ∈ segs, s.data ≠ []) : pathJoin segs ≠ "" := by
  apply str_ne_empty
  cases segs with
  | nil => exact absurd rfl hne
  | cons s0 rest =>
    cases rest with
    | nil => simpa [pathJoin, joinSep] using hwf s0 (by simp)
    | cons s1 r2 =>
      rw [pathJoin_data_cons s0 (s1 :: r2) (by simp)]
      simp

/-- The walk step with an empty current path. -/
theorem chainStep_eq_empty (m : List MEntry) (part : String) :
    chainStep m "" part =
      if mmHas m part then (m, part)
      else (m ++ [{ key := part, name := part, children := [] }], part) := by
  simp [chainStep]

/-- The walk step with a nonempty current path. -/
theorem chainStep_eq_pos (m : List MEntry) (cur part : String) (hc : cur ≠ "") :
    chainStep m cur part =
      if mmHas m (cur ++ "::" ++ part) then (m, cur ++ "::" ++ part)
      else if mmHas m cur then
        (mmPush (m ++ [{ key := cur ++ "::" ++ part, name := part, children := [] }]) cur
          (.ref (cur ++ "::" ++ part)), cur ++ "::" ++ part)
      else (m ++ [{ key := cur ++ "::" ++ part, name := part, children := [] }],
        cur ++ "::" ++ part) := by
  simp [chainStep, hc]

/-- The walk step always returns the extended path. -/
theorem chainStep_snd (m : List MEntry) (cur part : String) :
    (chainStep m cur part).2 = if cur ≠ "" then cur ++ "::" ++ part else part := by
  by_cases hc : cur = ""
  · subst hc
    rw [chainStep_eq_empty]
    split_ifs <;> first | rfl | simp_all
  · rw [chainStep_eq_pos m cur part hc, if_pos hc]
    split_ifs <;> rfl

/-- The walk step preserves key presence. -/
theorem chainStep_has_mono (m : List MEntry) (cur part k : String)
    (h : mmHas m k = true) : mmHas (chainStep m cur part).1 k = true := by
  by_cases hc : cur = ""
  · subst hc
    rw [chainStep_eq_empty]
    split_ifs with h1
    · exact h
    · exact (mmHas_append _ _ _).trans (by rw [h]; rfl)
  · rw [chainStep_eq_pos m cur part hc]
    split_ifs with h1 h2
    · exact h
    · exact (mmHas_push _ _ _ _).trans ((mmHas_append _ _ _).trans (by rw [h]; rfl))
    · exact (mmHas_append _ _ _).trans (by rw [h]; rfl)

/-- The walk step preserves membership among children. -/
theorem chainStep_children_mono {m : List MEntry} {k : String} {c : MChild}
    (cur part : String) (h : c ∈ mmChildren m k) :
    c ∈ mmChildren (chainStep m cur part).1 k := by
  by_cases hc : cur = ""
  · subst hc
    rw [chainStep_eq_empty]
    split_ifs with h1
    · exact h
    · exact mmChildren_append_mono _ h
  · rw [chainStep_eq_pos m cur part hc]
    split_ifs with h1 h2
    · exact h
    · exact mmChildren_push_mono _ _ (mmChildren_append_mono _ h)
    · exact mmChildren_append_mono _ h

/-- The walk step's resulting path is present in the resulting record. -/
theorem chainStep_has_new (m : List MEntry) (cur part : String) :
    mmHas (chainStep m cur part).1 (chainStep m cur part).2 = true := by
  by_cases hc : cur = ""
  · subst hc
    rw [chainStep_eq_empty]
    split_ifs with h1
    · exact h1
    · exact (mmHas_append _ _ _).trans (by simp)
  · rw [chainStep_eq_pos m cur part hc]
    split_ifs with h1 h2
    · exact h1
    · exact (mmHas_push _ _ _ _).trans ((mmHas_append _ _ _).trans (by simp))
    · exact (mmHas_append _ _ _).trans (by simp)

/-- The walk step keeps the keys without duplicates. -/
theorem chainStep_nodup {m : List MEntry} (cur part : String)
    (hnd : (entKeys m).Nodup) : (entKeys (chainStep m cur part).1).Nodup := by
  by_cases hc : cur = ""
  · subst hc
    rw [chainStep_eq_empty]
    split_ifs with h1
    · exact hnd
    · show (entKeys (m ++ [{ key := part, name := part, children := [] }])).Nodup
      rw [entKeys_append]
      simp only [List.nodup_append, List.nodup_cons, List.nodup_nil]
      exact ⟨hnd, by simp, by
        simpa using not_mem_entKeys_of_mmHas_false (Bool.eq_false_iff.mpr h1)⟩
  · rw [chainStep_eq_pos m cur part hc]
    split_ifs with h1 h2
    · exact hnd
    · show (entKeys (mmPush
          (m ++ [{ key := cur ++ "::" ++ part, name := part, children := [] }]) cur
          (.ref (cur ++ "::" ++ part)))).Nodup
      rw [entKeys_push, entKeys_append]
      simp only [List.nodup_append, List.nodup_cons, List.nodup_nil]
      exact ⟨hnd, by simp, by
        simpa using not_mem_entKeys_of_mmHas_false (Bool.eq_false_iff.mpr h1)⟩
    · show (entKeys
          (m ++ [{ key := cur ++ "::" ++ part, name := part, children := [] }])).Nodup
      rw [entKeys_append]
      simp only [List.nodup_append, List.nodup_cons, List.nodup_nil]
      exact ⟨hnd, by simp, by
        simpa using not_mem_entKeys_of_mmHas_false (Bool.eq_false_iff.mpr h1)⟩

/-- The walk step preserves the record invariant when the current path is
empty or already present and the new segment has no separator. -/
theorem chainStep_invr {m : List MEntry} {cur : String} (part : String)
    (hinv : INVR m)
    (hcur : cur = "" ∨ mmHas m cur = true) (hpart : hasSep part.data = false) :
    INVR (chainStep m cur part).1 := by
  by_cases hc : cur = ""
  · subst hc
    rw [chainStep_eq_empty]
    split_ifs with h1
    · exact hinv
    · exact @INVR_append m hinv { key := part, name := part, children := [] } hpart
  · have hcm : mmHas m cur = true := by
      rcases hcur with h | h
      · exact absurd h hc
      · exact h
    rw [chainStep_eq_pos m cur part hc, if_pos hcm]
    split_ifs with h1
    · exact hinv
    · -- new entry with a parent reference pushed onto the existing current path
      intro e' he' hsep
      rw [mmPush] at he'
      obtain ⟨e, he, hfe⟩ := List.mem_map.mp he'
      have hkey : e'.key = e.key := by rw [← hfe]; exact pushFun_key _ _ e
      rcases List.mem_append.mp he with hm | hnew
      · -- an old entry: reuse its old witness inside the pushed record
        rw [hkey] at hsep
        obtain ⟨c2, p, hfact, hp, e2, he2, hk2, href⟩ := hinv e hm hsep
        have hmem : (fun e3 => if e3.key = cur then
              { e3 with children := e3.children ++ [MChild.ref (cur ++ "::" ++ part)] }
              else e3) e2
            ∈ mmPush
              (m ++ [{ key := cur ++ "::" ++ part, name := part, children := [] }]) cur
              (.ref (cur ++ "::" ++ part)) := by
          rw [mmPush]
          exact List.mem_map_of_mem _ (List.mem_append_left _ he2)
        by_cases h3 : e2.key = cur
        · exact ⟨c2, p, by rw [hkey]; exact hfact, hp,
            { e2 with children := e2.children ++ [MChild.ref (cur ++ "::" ++ part)] },
            by simpa [h3] using hmem, hk2,
            by rw [hkey]; exact List.mem_append_left _ href⟩
        · exact ⟨c2, p, by rw [hkey]; exact hfact, hp, e2, by simpa [h3] using hmem, hk2,
            by rw [hkey]; exact href⟩
      · -- the new entry: its parent is the current path, which got the reference
        have henew : e = { key := cur ++ "::" ++ part, name := part, children := [] } := by
          simpa using hnew
        have hknp : e'.key = cur ++ "::" ++ part := by rw [hkey, henew]
        have hfact : e'.key.data = cur.data ++ ':' :: ':' :: part.data := by
          rw [hknp]
          simp [String.data_append]
        have hhas1 : mmHas
            (m ++ [{ key := cur ++ "::" ++ part, name := part, children := [] }]) cur
            = true := by
          rw [mmHas_append, hcm]
          rfl
        have hch := mmChildren_push_self hhas1 (MChild.ref (cur ++ "::" ++ part))
        obtain ⟨e2, he2, hk2, href⟩ := mmChildren_mem_entry hch
        exact ⟨cur.data, part.data, hfact, hpart, e2, he2, by rw [hk2],
          by rw [hknp]; exact href⟩

/-- The whole prefix walk preserves key presence. -/
theorem walk_has_mono : ∀ (parts : List String) (acc : List MEntry × String) (k : String),
    mmHas acc.1 k = true →
    mmHas ((parts.foldl (fun a part => chainStep a.1 a.2 part) acc).1) k = true := by
  intro parts
  induction parts with
  | nil => intro acc k h; simpa using h
  | cons p rest ih =>
    intro acc k h
    rw [List.foldl_cons]
    exact ih _ k (chainStep_has_mono _ _ _ _ h)

/-- The whole prefix walk preserves membership among children. -/
theorem walk_children_mono : ∀ (parts : List String) (acc : List MEntry × String)
    (k : String) (c : MChild), c ∈ mmChildren acc.1 k →
    c ∈ mmChildren ((parts.foldl (fun a part => chainStep a.1 a.2 part) acc).1) k := by
  intro parts
  induction parts with
  | nil => intro acc k c h; simpa using h
  | cons p rest ih =>
    intro acc k c h
    rw [List.foldl_cons]
    exact ih _ k c (chainStep_children_mono _ _ h)

/-- The whole prefix walk keeps keys duplicate-free and preserves the record
invariant, for separator-free segments. -/
theorem walk_pres : ∀ (parts : List String) (acc : List MEntry × String),
    (∀ p ∈ parts, hasSep p.data = false) →
    (entKeys acc.1).Nodup → INVR acc.1 → (acc.2 = "" ∨ mmHas acc.1 acc.2 = true) →
    (entKeys ((parts.foldl (fun a part => chainStep a.1 a.2 part) acc).1)).Nodup ∧
    INVR ((parts.foldl (fun a part => chainStep a.1 a.2 part) acc).1) := by
  intro parts
  induction parts with
  | nil => intro acc _ h1 h2 _; exact ⟨h1, h2⟩
  | cons p rest ih =>
    intro acc hsep h1 h2 h3
    rw [List.foldl_cons]
    exact ih _ (fun q hq => hsep q (List.mem_cons_of_mem _ hq))
      (chainStep_nodup _ _ h1)
      (chainStep_invr _ h2 h3 (hsep p (List.mem_cons_self _ _)))
      (Or.inr (chainStep_has_new _ _ _))

/-- The prefix walk from a nonempty current path returns the full join. -/
theorem walk_snd : ∀ (parts : List String) (acc : List MEntry × String), acc.2 ≠ "" →
    (parts.foldl (fun a part => chainStep a.1 a.2 part) acc).2 = extJoin acc.2 parts := by
  intro parts
  induction parts with
  | nil => intro acc _; rfl
  | cons p rest ih =>
    intro acc h
    rw [List.foldl_cons]
    have h2 : (chainStep acc.1 acc.2 p).2 = acc.2 ++ "::" ++ p := by
      rw [chainStep_snd, if_pos h]
    have h3 := ih (chainStep acc.1 acc.2 p) (by rw [h2]; exact extend_ne_empty _ _)
    rw [h3, h2]
    rfl

/-- Extending a join by further segments joins the concatenation. -/
theorem extJoin_pathJoin : ∀ (parts pre : List String), pre ≠ [] →
    extJoin (pathJoin pre) parts = pathJoin (pre ++ parts) := by
  intro parts
  induction parts with
  | nil => intro pre h; simp [extJoin]
  | cons p rest ih =>
    intro pre h
    have h1 : extJoin (pathJoin pre) (p :: rest) = extJoin (pathJoin pre ++ "::" ++ p) rest :=
      rfl
    rw [h1, ← pathJoin_snoc p h, ih (pre ++ [p]) (by simp)]
    simp

/-- After walking further segments from a present join, every extended prefix
join is present in the record. -/
theorem walk_prefix : ∀ (parts : List String) (m : List MEntry) (pre : List String),
    pre ≠ [] → pathJoin pre ≠ "" → mmHas m (pathJoin pre) = true →
    ∀ i, i ≤ parts.length →
      mmHas ((parts.foldl (fun a part => chainStep a.1 a.2 part) (m, pathJoin pre)).1)
        (pathJoin (pre ++ parts.take i)) = true := by
  intro parts
  induction parts with
  | nil =>
    intro m pre hne hpne hhas i hi
    have hi0 : i = 0 := by simpa using hi
    subst hi0
    simpa using hhas
  | cons p rest ih =>
    intro m pre hne hpne hhas i hi
    simp only [List.foldl_cons]
    have hsnd : (chainStep m (pathJoin pre) p).2 = pathJoin (pre ++ [p]) := by
      rw [chainStep_snd, if_pos hpne, pathJoin_snoc p hne]
    have hnew : mmHas (chainStep m (pathJoin pre) p).1 (pathJoin (pre ++ [p])) = true := by
      rw [← hsnd]
      exact chainStep_has_new _ _ _
    have hacc : chainStep m (pathJoin pre) p
        = ((chainStep m (pathJoin pre) p).1, pathJoin (pre ++ [p])) := by
      rw [← hsnd]
    rw [hacc]
    cases i with
    | zero =>
      have h0 := walk_has_mono rest ((chainStep m (pathJoin pre) p).1, pathJoin (pre ++ [p]))
        (pathJoin pre) (chainStep_has_mono m (pathJoin pre) p _ hhas)
      simpa using h0
    | succ j =>
      have hj : j ≤ rest.length := by simpa using hi
      have hres := ih (chainStep m (pathJoin pre) p).1 (pre ++ [p]) (by simp)
        (by rw [pathJoin_snoc p hne]; exact extend_ne_empty _ _) hnew j hj
      simpa using hres

/-- Processing one node keeps keys duplicate-free and preserves the record
invariant. -/
theorem processNode_pres (m : List MEntry) (n : GNode)
    (hnd : (entKeys m).Nodup) (hinv : INVR m) :
    (entKeys (processNode m n)).Nodup ∧ INVR (processNode m n) := by
  have hparts : ∀ p ∈ (splitSep (n.path.getD "").data).map (fun l => (⟨l⟩ : String)),
      hasSep p.data = false := by
    intro p hp
    obtain ⟨l, hl, rfl⟩ := List.mem_map.mp hp
    exact splitSep_parts_nosep _ l hl
  have hwp := walk_pres ((splitSep (n.path.getD "").data).map (fun l => (⟨l⟩ : String)))
    (m, "") hparts hnd hinv (Or.inl rfl)
  simp only [processNode]
  split_ifs with h1 h2
  · exact ⟨by rw [entKeys_push]; exact hwp.1, INVR_push hwp.2 _ _⟩
  · exact hwp
  · exact hwp

/-- Processing one node preserves key presence. -/
theorem processNode_has_mono (m : List MEntry) (n : GNode) (k : String)
    (h : mmHas m k = true) : mmHas (processNode m n) k = true := by
  have hw := walk_has_mono ((splitSep (n.path.getD "").data).map (fun l => (⟨l⟩ : String)))
    (m, "") k h
  simp only [processNode]
  split_ifs with h1 h2
  · rw [mmHas_push]
    exact hw
  · exact hw
  · exact hw

/-- Processing one node preserves membership among children. -/
theorem processNode_children_mono (m : List MEntry) (n : GNode) (k : String) (c : MChild)
    (h : c ∈ mmChildren m k) : c ∈ mmChildren (processNode m n) k := by
  have hw := walk_children_mono
    ((splitSep (n.path.getD "").data).map (fun l => (⟨l⟩ : String))) (m, "") k c h
  simp only [processNode]
  split_ifs with h1 h2
  · exact mmChildren_push_mono _ _ hw
  · exact hw
  · exact hw

/-- Processing a non-module node with a well-formed multi-segment path
attaches the node under the join of all but the last segment, and creates a
module entry for every nonempty prefix join of its path. -/
theorem processNode_attach (m : List MEntry) (n : GNode) (s0 : String) (rest : List String)
    (hwf : ∀ s ∈ s0 :: rest, s.data ≠ [] ∧ ':' ∉ s.data) (hr : rest ≠ [])
    (hpath : n.path = some (pathJoin (s0 :: rest))) (htype : n.type ≠ "module") :
    MChild.leaf n ∈ mmChildren (processNode m n) (pathJoin ((s0 :: rest).dropLast)) ∧
    (∀ i, 1 ≤ i → i ≤ (s0 :: rest).length →
      mmHas (processNode m n) (pathJoin ((s0 :: rest).take i)) = true) := by
  have hrlen : 1 ≤ rest.length := List.length_pos.mpr hr
  have hget : n.path.getD "" = pathJoin (s0 :: rest) := by rw [hpath]; rfl
  have hdata : (n.path.getD "").data = joinSep ((s0 :: rest).map String.data) := by
    rw [hget]
    rfl
  have hsplit : splitSep ((n.path.getD "").data) = (s0 :: rest).map String.data := by
    rw [hdata]
    exact splitSep_join _
      (by
        intro l hl
        obtain ⟨s, hs, rfl⟩ := List.mem_map.mp hl
        exact (hwf s hs).2)
      (by simp)
  have hparts : (splitSep ((n.path.getD "").data)).map (fun l => (⟨l⟩ : String))
      = s0 :: rest := by
    rw [hsplit, map_mk_data]
  have hs0ne : s0 ≠ "" := str_ne_empty (hwf s0 (by simp)).1
  have hcs : (chainStep m "" s0).2 = s0 := by
    rw [chainStep_snd]
    simp
  have h1has : mmHas (chainStep m "" s0).1 s0 = true := by
    have h0 := chainStep_has_new m "" s0
    rwa [hcs] at h0
  have haccp : chainStep m "" s0 = ((chainStep m "" s0).1, pathJoin [s0]) := by
    rw [pathJoin_single]
    exact Prod.ext_iff.mpr ⟨rfl, hcs⟩
  have hpre := walk_prefix rest (chainStep m "" s0).1 [s0] (by simp)
    (by rw [pathJoin_single]; exact hs0ne)
    (by rw [pathJoin_single]; exact h1has)
  have hfold : ((s0 :: rest).foldl (fun a part => chainStep a.1 a.2 part) (m, "")).1
      = ((rest.foldl (fun a part => chainStep a.1 a.2 part)
          ((chainStep m "" s0).1, pathJoin [s0])).1) := by
    simp only [List.foldl_cons]
    rw [haccp]
  have hpre2 : ∀ i, 1 ≤ i → i ≤ (s0 :: rest).length →
      mmHas (((s0 :: rest).foldl (fun a part => chainStep a.1 a.2 part) (m, "")).1)
        (pathJoin ((s0 :: rest).take i)) = true := by
    intro i h1i h2i
    rw [hfold]
    cases i with
    | zero => omega
    | succ j =>
      have hj : j ≤ rest.length := by simpa using h2i
      have hres := hpre j hj
      simpa using hres
  have hdl : (s0 :: rest).dropLast = (s0 :: rest).take ((s0 :: rest).length - 1) :=
    List.dropLast_eq_take _
  have hpar : mmHas (((s0 :: rest).foldl (fun a part => chainStep a.1 a.2 part) (m, "")).1)
      (pathJoin ((s0 :: rest).dropLast)) = true := by
    rw [hdl]
    exact hpre2 _ (by simpa using hrlen) (Nat.sub_le _ _)
  have hlast := @lastSep_of_join ((s0 :: rest).map String.data)
    (by
      intro s hs
      obtain ⟨t, ht, rfl⟩ := List.mem_map.mp hs
      exact ⟨(hwf t ht).1, (hwf t ht).2⟩)
    (by
      simp only [List.length_map, List.length_cons]
      omega)
  have hmp : (⟨jsSubstring ((n.path.getD "").data) 0
        (jsLastIndexOf ((n.path.getD "").data) [':', ':'])⟩ : String)
      = pathJoin ((s0 :: rest).dropLast) := by
    rw [hdata]
    apply strExt
    show jsSubstring (joinSep ((s0 :: rest).map String.data)) 0
        (jsLastIndexOf (joinSep ((s0 :: rest).map String.data)) [':', ':'])
      = joinSep (((s0 :: rest).dropLast).map String.data)
    rw [hlast.2, ← List.map_dropLast]
  have htr : jsTruthy n.path = true := by
    rw [hpath]
    exact jsTruthy_some (pathJoin_ne_empty (by simp) (fun s hs => (hwf s hs).1))
  simp only [processNode, hparts]
  rw [if_pos (⟨htype, htr⟩ : n.type ≠ "module" ∧ jsTruthy n.path = true)]
  rw [hmp, if_pos hpar]
  constructor
  · exact mmChildren_push_self hpar (MChild.leaf n)
  · intro i h1i h2i
    rw [mmHas_push]
    exact hpre2 i h1i h2i

/-- Folding the node processor preserves the record invariants and is
monotone in presence and children. -/
theorem processNode_fold_pres : ∀ (ns : List GNode) (m : List MEntry),
    (entKeys m).Nodup → INVR m →
    (entKeys (ns.foldl processNode m)).Nodup ∧ INVR (ns.foldl processNode m) ∧
    (∀ k, mmHas m k = true → mmHas (ns.foldl processNode m) k = true) ∧
    (∀ k c, c ∈ mmChildren m k → c ∈ mmChildren (ns.foldl processNode m) k) := by
  intro ns
  induction ns with
  | nil => intro m h1 h2; exact ⟨h1, h2, fun _ h => h, fun _ _ h => h⟩
  | cons x t ih =>
    intro m h1 h2
    rw [List.foldl_cons]
    obtain ⟨hn1, hn2⟩ := processNode_pres m x h1 h2
    obtain ⟨r1, r2, r3, r4⟩ := ih (processNode m x) hn1 hn2
    exact ⟨r1, r2, fun k h => r3 k (processNode_has_mono m x k h),
      fun k c h => r4 k c (processNode_children_mono m x k c h)⟩

/-- A reference chain extends by one step at its far end. -/
theorem RefChain.snoc {m : List MEntry} {a b c : String} {d : Nat}
    (h : RefChain m a b d) (h1 : MChild.ref c ∈ mmChildren m b) (h2 : mmHas m c = true) :
    RefChain m a c (d + 1) := by
  revert h1
  induction h with
  | refl k => intro h1; exact RefChain.step h1 h2 (RefChain.refl c)
  | step hx hy hz ih => intro h1; exact RefChain.step hx hy (ih h1)

/-- From the record invariant, a present well-formed join is reachable by a
reference chain from its first segment. -/
theorem chain_of_INVR (m : List MEntry) (hnd : (entKeys m).Nodup) (hinv : INVR m) :
    ∀ segs : List String, (∀ s ∈ segs, s.data ≠ [] ∧ ':' ∉ s.data) → segs ≠ [] →
    mmHas m (pathJoin segs) = true →
    RefChain m (pathJoin (segs.take 1)) (pathJoin segs) (segs.length - 1) := by
  intro segs
  induction segs using List.reverseRecOn with
  | nil => intro _ h; exact absurd rfl h
  | append_singleton pre s ih =>
    intro hwf hne hhas
    by_cases hp : pre = []
    · subst hp
      simpa using RefChain.refl (pathJoin [s])
    · have hkey : (pathJoin (pre ++ [s])).data
          = (pathJoin pre).data ++ ':' :: ':' :: s.data := by
        rw [pathJoin_snoc s hp]
        simp [String.data_append]
      have hsep2 : hasSep (pathJoin (pre ++ [s])).data = true := by
        rw [hkey]
        exact hasSep_append_sep _ _
      obtain ⟨e, he, hek⟩ := mmHas_exists.mp hhas
      obtain ⟨c, p, hfact, hpns, e2, he2, hk2, href⟩ := hinv e he (by rw [hek]; exact hsep2)
      have hjoin : joinSep ((pre ++ [s]).map String.data) = c ++ ':' :: ':' :: p := by
        have hd : (pathJoin (pre ++ [s])).data = c ++ ':' :: ':' :: p := by
          rw [← hek]
          exact hfact
        exact hd
      have hfac := joinSep_factor ((pre ++ [s]).map String.data) c p
        (by
          intro t ht
          obtain ⟨u, hu, rfl⟩ := List.mem_map.mp ht
          exact ⟨(hwf u hu).1, (hwf u hu).2⟩)
        (by simp) hjoin hpns
      have hc : c = (pathJoin pre).data := by
        rw [hfac.1, ← List.map_dropLast, List.dropLast_concat]
        rfl
      have he2key : e2.key = pathJoin pre := strExt (by rw [hk2, hc])
      have hhaspre : mmHas m (pathJoin pre) = true := mmHas_exists.mpr ⟨e2, he2, he2key⟩
      have hchain := ih (fun t ht => hwf t (List.mem_append_left _ ht)) hp hhaspre
      have hrefc : MChild.ref (pathJoin (pre ++ [s])) ∈ mmChildren m (pathJoin pre) := by
        have hmm := mmChildren_eq hnd he2
        rw [he2key] at hmm
        rw [hmm, ← hek]
        exact href
      have hsnoc := RefChain.snoc hchain hrefc hhas
      have htake : (pre ++ [s]).take 1 = pre.take 1 := by
        cases pre with
        | nil => exact absurd rfl hp
        | cons a t => rfl
      have hlen : (pre ++ [s]).length - 1 = (pre.length - 1) + 1 := by
        have h1 : 1 ≤ pre.length := List.length_pos.mpr hp
        simp only [List.length_append, List.length_cons, List.length_nil]
        omega
      rw [htake, hlen]
      exact hsnoc

/-- A node id occurring in a member tree occurs in the list. -/
theorem occursL_of_mem : ∀ {ts : List HTree} {t : HTree} {s : String},
    t ∈ ts → occursT t s = true → occursL ts s = true := by
  intro ts
  induction ts with
  | nil => intro t s ht _; simp at ht
  | cons u us ih =>
    intro t s ht h
    rcases List.mem_cons.mp ht with rfl | hm
    · show (occursT t s || occursL us s) = true
      rw [h]
      rfl
    · show (occursT u s || occursL us s) = true
      rw [ih hm h]
      simp

/-- Following a reference chain into a materialized tree with enough fuel
reaches the children of the chain's end, so an attached leaf occurs. -/
theorem occurs_of_chain (m : List MEntry) (hnd : (entKeys m).Nodup) (n : GNode) :
    ∀ (d fuel : Nat), d < fuel → ∀ e ∈ m, ∀ k : String, RefChain m e.key k d →
      MChild.leaf n ∈ mmChildren m k →
      occursT (matTree m fuel e) n.id = true := by
  intro d
  induction d with
  | zero =>
    intro fuel hf e he k hchain hleaf
    cases fuel with
    | zero => omega
    | succ f =>
      have hk : k = e.key := by cases hchain; rfl
      subst hk
      rw [mmChildren_eq hnd he] at hleaf
      simp only [matTree, occursT]
      have hocc : occursT (HTree.mk n.id n.name n.type n.path n.file n.signature []) n.id
          = true := by
        show (n.id == n.id || occursL [] n.id) = true
        simp
      rw [occursL_of_mem (List.mem_map_of_mem _ hleaf) hocc]
      simp
  | succ d2 ih =>
    intro fuel hf e he k hchain hleaf
    cases fuel with
    | zero => omega
    | succ f =>
      cases hchain with
      | step h1 h2 h3 =>
        rename_i k2
        rw [mmChildren_eq hnd he] at h1
        obtain ⟨e2, hfind, he2, he2k⟩ := find?_of_mmHas h2
        have hih := ih f (by omega) e2 he2 k (by rw [he2k]; exact h3) hleaf
        simp only [matTree, occursT]
        have hocc2 : occursT (match m.find? (fun e3 => e3.key == k2) with
            | some e3 => matTree m f e3
            | none => HTree.mk ("module:" ++ k2) "" "module" (some k2) none none []) n.id
            = true := by
          rw [hfind]
          exact hih
        rw [occursL_of_mem (List.mem_map_of_mem _ h1) hocc2]
        simp

/-- The data length of prefix joins grows strictly with the prefix. -/
theorem pathJoin_prefix_len_mono (segs : List String) :
    ∀ j i, i < j → j < segs.length →
      ((pathJoin (segs.take (i+1))).data).length
        < ((pathJoin (segs.take (j+1))).data).length := by
  have hstep : ∀ i, i + 1 < segs.length →
      ((pathJoin (segs.take (i+1))).data).length
        < ((pathJoin (segs.take (i+1+1))).data).length := by
    intro i hi
    have hne : segs.take (i+1) ≠ [] := by
      apply List.ne_nil_of_length_pos
      rw [List.length_take]
      omega
    have hget : segs[i+1]? = some (segs.get ⟨i+1, hi⟩) := by
      rw [List.getElem?_eq_getElem hi]
      rfl
    have htake : segs.take (i+1+1) = segs.take (i+1) ++ [segs.get ⟨i+1, hi⟩] := by
      rw [List.take_succ, hget]
      rfl
    rw [htake, pathJoin_snoc _ hne]
    simp only [String.data_append, List.length_append, List.length_cons, List.length_nil]
    omega
  intro j
  induction j with
  | zero => intro i h _; omega
  | succ j2 ihj =>
    intro i hij hj
    rcases Nat.lt_succ_iff_lt_or_eq.mp hij with h | h
    · exact Nat.lt_trans (ihj i h (by omega)) (hstep j2 hj)
    · subst h
      exact hstep i hj

/-- A record holding every nonempty prefix join of a segment list has at
least as many entries as there are segments. -/
theorem prefix_count (m : List MEntry) (segs : List String)
    (hhas : ∀ i, 1 ≤ i → i ≤ segs.length → mmHas m (pathJoin (segs.take i)) = true) :
    segs.length ≤ m.length := by
  have hsub : ((List.range segs.length).map (fun i => pathJoin (segs.take (i+1))))
      ⊆ entKeys m := by
    intro x hx
    obtain ⟨i, hi, rfl⟩ := List.mem_map.mp hx
    rw [List.mem_range] at hi
    exact mem_entKeys_of_mmHas (hhas (i+1) (by omega) (by omega))
  have hnodup : ((List.range segs.length).map
      (fun i => pathJoin (segs.take (i+1)))).Nodup := by
    apply (List.nodup_range _).map_on
    intro i hi j hj heq
    rw [List.mem_range] at hi hj
    have heq2 : pathJoin (segs.take (i+1)) = pathJoin (segs.take (j+1)) := heq
    by_contra hne
    rcases Nat.lt_or_ge i j with h | h
    · have hlt := pathJoin_prefix_len_mono segs j i h hj
      rw [heq2] at hlt
      omega
    · have h2 : j < i := by omega
      have hlt := pathJoin_prefix_len_mono segs i j h2 hi
      rw [heq2] at hlt
      omega
  have hsp := List.subperm_of_subset hnodup hsub
  have hle := hsp.length_le
  simpa [entKeys] using hle

/-- Any property preserved by the aggregation step holds for all aggregated
links. -/
theorem agg_links_forall {P : GLink → Prop} {mm : List (String × String)}
    (hnew : ∀ A B, A ≠ B →
      P { source := A, target := B, type := "contains", value := some 1 })
    (hupd : ∀ l, P l → P { l with value := some (l.value.getD 0 + 1) }) :
    ∀ (ls : List GLink) (acc : List GLink), (∀ l ∈ acc, P l) →
      ∀ l ∈ ls.foldl (aggStep mm) acc, P l := by
  intro ls
  induction ls with
  | nil => intro acc h; simpa using h
  | cons x t ih =>
    intro acc h
    rw [List.foldl_cons]
    exact ih _ (aggStep_forall hnew hupd acc x h)

end VisCode

namespace VisCode

/-! Claim theorems. -/

/-- C7: parsing a single Python file with class Foo and method bar yields
exactly a class node Foo and a method node for Foo.bar with a contains edge
from the class to the method, and no standalone function node is emitted
for the method. -/
theorem claim7_python_class_method :
    parsePythonFile "main" "p/main.py" (some c7code) =
      ([{ id := "class:main:Foo", type := "class", name := "Foo", path := "main",
          file := "p/main.py", signature := some "class Foo", docstring := some "" },
        { id := "method:main:Foo.bar", type := "method", name := "bar", path := "main",
          file := "p/main.py", signature := some "def bar()", docstring := some "" }],
       [{ source := "class:main:Foo", target := "method:main:Foo.bar", type := "contains" }])
      ∧ ∀ n ∈ (parsePythonFile "main" "p/main.py" (some c7code)).1, n.type ≠ "function" := by
  refine ⟨by decide, ?_⟩
  decide

/-- C8: an unreadable file yields the empty extraction result in both parsers,
and removing such a file from a project parse leaves the resulting project
unchanged, so a single unreadable file never aborts the overall parse. -/
theorem claim8_unreadable_file_soft (fp pkg root : String)
    (fs1 fs2 : List (String × Option String)) (ps1 ps2 : List PyFile) :
    parseRustFile fp none = ([], []) ∧
    parsePythonFile pkg fp none = ([], []) ∧
    parseRustProjectFiles root (fs1 ++ (fp, none) :: fs2)
      = parseRustProjectFiles root (fs1 ++ fs2) ∧
    parsePythonProjectFiles root (ps1 ++ { pkg := pkg, path := fp, content := none } :: ps2)
      = parsePythonProjectFiles root (ps1 ++ ps2) := by
  refine ⟨rfl, rfl, ?_, ?_⟩
  · simp [parseRustProjectFiles, parseRustFile]
  · simp [parsePythonProjectFiles, parsePythonFile]

/-- C9: the project parsers and the four view projections are pure functions
of their modelled inputs, so two runs on a fixed directory tree and fixed
file contents produce identical projects and identical views. -/
theorem claim9_determinism (root : String) (fs : List (String × Option String))
    (ps : List PyFile) (p : RustProject) (g : GraphData) :
    parseRustProjectFiles root fs = parseRustProjectFiles root fs ∧
    parsePythonProjectFiles root ps = parsePythonProjectFiles root ps ∧
    convertToGraphData p = convertToGraphData p ∧
    convertToHierarchical g = convertToHierarchical g ∧
    filterModuleDependencies g = filterModuleDependencies g ∧
    filterCallGraph g = filterCallGraph g :=
  ⟨rfl, rfl, rfl, rfl, rfl, rfl⟩

/-- C1 counterexample: the Rust parser extracts a raw edge to the undeclared
function missing_call, but the resolution pass of parseRustProject removes
it; the final edge list contains no edge with a synthesized target, so
resolution does remove edges. -/
theorem claim1_cex :
    (parseRustFile "proj/main.rs" (some c1code)).2 =
      [{ source := "function:main:a", target := "function::a", type := "calls" },
       { source := "function:main:a", target := "function::missing_call", type := "calls" }]
    ∧ (parseRustProjectFiles "proj" [("proj/main.rs", some c1code)]).dependencies =
      [{ source := "function:main:a", target := "function:main:a", type := "calls" }] := by
  exact ⟨by decide, by decide⟩

/-- C1 amended: only the Python parser keeps every extracted raw edge (its
project assembly is pure concatenation with no resolution pass, so edges
with synthesized unresolved targets of the form kind:scope:name survive);
the Rust regex parser instead drops any edge whose source or target fails
to match a declared node. -/
theorem claim1_amended_python_keeps_edges (root : String) (files : List PyFile)
    (f : PyFile) (hf : f ∈ files) (d : PyDep)
    (hd : d ∈ (parsePythonFile f.pkg f.path f.content).2) :
    d ∈ (parsePythonProjectFiles root files).dependencies := by
  simp only [parsePythonProjectFiles, List.mem_flatten, List.map_map]
  exact ⟨(parsePythonFile f.pkg f.path f.content).2, List.mem_map.mpr ⟨f, hf, rfl⟩, hd⟩

/-- C1 witness: a Python file calling the undeclared g keeps its unresolved
calls edge in the final project. -/
theorem claim1_amended_witness :
    ({ pkg := "main", path := "p/main.py", content := some c1pyCode } : PyFile)
        ∈ [({ pkg := "main", path := "p/main.py", content := some c1pyCode } : PyFile)] ∧
    ({ source := "function:main:f", target := "function::g", type := "calls" } : PyDep)
        ∈ (parsePythonFile "main" "p/main.py" (some c1pyCode)).2 ∧
    ({ source := "function:main:f", target := "function::g", type := "calls" } : PyDep)
        ∈ (parsePythonProjectFiles "p"
            [{ pkg := "main", path := "p/main.py", content := some c1pyCode }]).dependencies :=
  ⟨by decide, by decide,
    claim1_amended_python_keeps_edges "p"
      [{ pkg := "main", path := "p/main.py", content := some c1pyCode }]
      { pkg := "main", path := "p/main.py", content := some c1pyCode } (by decide)
      { source := "function:main:f", target := "function::g", type := "calls" } (by decide)⟩

/-- C2 counterexample: two files with the same basename in different
directories produce two distinct declarations (their qualified paths
differ) that share one node id, and the final node set consumed by the
projector keeps both, so it contains duplicate ids. -/
theorem claim2_cex :
    ((parseRustProjectFiles "p" [("p/a/main.rs", some "fn f() \x7b\x7d"),
        ("p/b/main.rs", some "fn f() \x7b\x7d")]).nodes.map RustNode.id
      = ["function:main:f", "function:main:f"]) ∧
    ((parseRustProjectFiles "p" [("p/a/main.rs", some "fn f() \x7b\x7d"),
        ("p/b/main.rs", some "fn f() \x7b\x7d")]).nodes.map RustNode.path
      = ["a::main::f", "b::main::f"]) := by
  exact ⟨by decide, by decide⟩

/-- C2 amended: within one file the id of a node determines exactly its kind
and name (ids are the deterministic string kind, file-basename scope and
name, and kinds are colon-free), so two extracted declarations of one file
share an id exactly when they agree on kind and name; across files,
declarations agreeing on kind, name and file basename collide even when
their qualified paths differ, and no deduplication pass exists. -/
theorem claim2_amended_id_unique_per_file (fp code : String) (n1 n2 : RustNode)
    (h1 : n1 ∈ (parseRustFile fp (some code)).1)
    (h2 : n2 ∈ (parseRustFile fp (some code)).1) :
    n1.id = n2.id ↔ (n1.type = n2.type ∧ n1.name = n2.name) := by
  obtain ⟨e1, c1⟩ := parseRustFile_id_shape fp code n1 h1
  obtain ⟨e2, c2⟩ := parseRustFile_id_shape fp code n2 h2
  constructor
  · intro h
    exact generateId_inj c1 c2 (e1 ▸ e2 ▸ h)
  · intro ⟨ht, hn⟩
    rw [e1, e2, ht, hn]

/-- C2 witness: the amended uniqueness applied to the two nodes of one
concrete file. -/
theorem claim2_amended_witness :
    (({ id := "function:main:f", type := "function", name := "f", path := "main",
        file := "p/main.rs", signature := some "fn f()",
        visibility := some "private" } : RustNode)
      ∈ (parseRustFile "p/main.rs" (some "fn f() \x7b\x7d struct S;")).1) ∧
    (({ id := "struct:main:S", type := "struct", name := "S", path := "main",
        file := "p/main.rs", signature := some "struct S",
        visibility := some "private" } : RustNode)
      ∈ (parseRustFile "p/main.rs" (some "fn f() \x7b\x7d struct S;")).1) ∧
    ¬ (({ id := "function:main:f", type := "function", name := "f", path := "main",
          file := "p/main.rs", signature := some "fn f()",
          visibility := some "private" } : RustNode).id
        = ({ id := "struct:main:S", type := "struct", name := "S", path := "main",
             file := "p/main.rs", signature := some "struct S",
             visibility := some "private" } : RustNode).id) :=
  ⟨by decide, by decide, fun h => by
    have := (claim2_amended_id_unique_per_file "p/main.rs" "fn f() \x7b\x7d struct S;"
      { id := "function:main:f", type := "function", name := "f", path := "main",
        file := "p/main.rs", signature := some "fn f()", visibility := some "private" }
      { id := "struct:main:S", type := "struct", name := "S", path := "main",
        file := "p/main.rs", signature := some "struct S", visibility := some "private" }
      (by decide) (by decide)).mp h
    exact absurd this.1 (by decide)⟩

/-- C3 counterexample: on the scenario file the final project has three calls
edges, not one, because the body window of each function starts at its own
header, whose name-parenthesis sequence is scanned as a call; the enclosing
declarations a and b are therefore themselves recorded as call targets. -/
theorem claim3_cex :
    (parseRustProjectFiles "proj" [("proj/main.rs", some c3code)]).dependencies =
      [{ source := "function:main:a", target := "function:main:a", type := "calls" },
       { source := "function:main:a", target := "function:main:b", type := "calls" },
       { source := "function:main:b", target := "function:main:b", type := "calls" }] ∧
    ¬ ((parseRustProjectFiles "proj"
        [("proj/main.rs", some c3code)]).dependencies.filter
          (fun d => d.type == "calls")).length = 1 := by
  exact ⟨by decide, by decide⟩

/-- C3 amended: the scenario yields exactly two function nodes, a public and b
private, and exactly three calls edges a to a, a to b and b to b; the two
self-loops arise because each function's own header is inside its scanned
body window, and the a to b edge is present as specified. -/
theorem claim3_amended_scenario :
    parseRustProjectFiles "proj" [("proj/main.rs", some c3code)] =
      { name := "proj", root := "proj",
        nodes := [{ id := "function:main:a", type := "function", name := "a",
                    path := "main::a", file := "proj/main.rs",
                    signature := some "fn a()", visibility := some "public" },
                  { id := "function:main:b", type := "function", name := "b",
                    path := "main::b", file := "proj/main.rs",
                    signature := some "fn b()", visibility := some "private" }],
        dependencies :=
          [{ source := "function:main:a", target := "function:main:a", type := "calls" },
           { source := "function:main:a", target := "function:main:b", type := "calls" },
           { source := "function:main:b", target := "function:main:b", type := "calls" }] } := by
  decide

/-- C6: every dependency kept by the Rust project resolution has a source that
is the id of some node of the project and a target that is the id of a node
whose kind matches the translated edge kind; in particular calls edges
target function nodes and implements edges target trait nodes. -/
theorem claim6_resolved_edges_wellformed (root : String)
    (files : List (String × Option String)) (d : RustDep)
    (hd : d ∈ (parseRustProjectFiles root files).dependencies) :
    (∃ n ∈ (parseRustProjectFiles root files).nodes, n.id = d.source) ∧
    (∃ n ∈ (parseRustProjectFiles root files).nodes,
        n.id = d.target ∧ n.type = targetType d.type) ∧
    targetType "calls" = "function" ∧ targetType "implements" = "trait" := by
  simp only [parseRustProjectFiles] at hd ⊢
  obtain ⟨d0, _, hres⟩ := List.mem_filterMap.mp hd
  obtain ⟨hs, ht, _⟩ := resolveDep_spec hres
  exact ⟨hs, ht, by decide, by decide⟩

/-- C6 witness: the resolved a-to-b edge of the scenario project has node
endpoints of the right kinds. -/
theorem claim6_witness :
    (({ source := "function:main:a", target := "function:main:b", type := "calls" } : RustDep)
      ∈ (parseRustProjectFiles "proj" [("proj/main.rs", some c3code)]).dependencies) ∧
    ((∃ n ∈ (parseRustProjectFiles "proj" [("proj/main.rs", some c3code)]).nodes,
        n.id = "function:main:a") ∧
     (∃ n ∈ (parseRustProjectFiles "proj" [("proj/main.rs", some c3code)]).nodes,
        n.id = "function:main:b" ∧ n.type = targetType "calls") ∧
     targetType "calls" = "function" ∧ targetType "implements" = "trait") :=
  ⟨by decide, claim6_resolved_edges_wellformed "proj" [("proj/main.rs", some c3code)]
    { source := "function:main:a", target := "function:main:b", type := "calls" } (by decide)⟩

/-- C10: every link of the module-dependency view has the fixed type contains
regardless of the kinds of the aggregated underlying edges, and every node
of the view has type module, val 10 and the fixed orange color. -/
theorem claim10_module_view_constants (g : GraphData) :
    (∀ l ∈ (filterModuleDependencies g).links, l.type = "contains") ∧
    (∀ n ∈ (filterModuleDependencies g).nodes,
      n.type = "module" ∧ n.val = 10 ∧ n.color = some "#FF9800") := by
  constructor
  · intro l hl
    simp only [filterModuleDependencies] at hl
    exact agg_links_forall (P := fun l => l.type = "contains")
      (fun _ _ _ => rfl) (fun _ h => h) g.links [] (by simp) l hl
  · intro n hn
    simp only [filterModuleDependencies] at hn
    obtain ⟨m, _, rfl⟩ := List.mem_map.mp hn
    exact ⟨rfl, rfl, rfl⟩

/-- C10 witness: the aggregated link and the module nodes of a concrete graph
carry the fixed type, val and color. -/
theorem claim10_witness :
    (({ source := "A", target := "B", type := "contains", value := some 2 } : GLink)
      ∈ (filterModuleDependencies c4graph).links) ∧
    (({ source := "A", target := "B", type := "contains", value := some 2 } : GLink).type
      = "contains") ∧
    (({ id := "A", name := "A", type := "module", val := 10,
        color := some "#FF9800" } : GNode) ∈ (filterModuleDependencies c4graph).nodes) ∧
    (({ id := "A", name := "A", type := "module", val := 10,
        color := some "#FF9800" } : GNode).type = "module" ∧
     ({ id := "A", name := "A", type := "module", val := 10,
        color := some "#FF9800" } : GNode).val = 10 ∧
     ({ id := "A", name := "A", type := "module", val := 10,
        color := some "#FF9800" } : GNode).color = some "#FF9800") :=
  ⟨by decide,
   (claim10_module_view_constants c4graph).1 _ (by decide),
   by decide,
   (claim10_module_view_constants c4graph).2 _ (by decide)⟩

/-- C4: in the module-dependency view of a graph with unique node ids, the
node-to-module map sends an id to module M exactly when the graph has a
node with that id, a truthy path and first path segment M; for each ordered
pair of distinct modules the view has exactly one link, with value the
count of underlying links between nodes of those modules, and none when the
count is zero; no link is a self-loop; and the view has exactly one node
per module that is the first path segment of some node of the input. -/
theorem claim4_module_aggregation (g : GraphData)
    (hN : (g.nodes.map GNode.id).Nodup) (A B : String) (hAB : A ≠ B) :
    (∀ i M, ModOf g i = some M ↔
      ∃ n, n ∈ g.nodes ∧ n.id = i ∧ jsTruthy n.path = true
        ∧ firstSeg (n.path.getD "") = M) ∧
    (pairLinks (filterModuleDependencies g).links A B =
      (if cntLinks (moduleMapOf g.nodes) g.links A B = 0 then []
       else [{ source := A, target := B, type := "contains",
               value := some (cntLinks (moduleMapOf g.nodes) g.links A B) }])) ∧
    (∀ l ∈ (filterModuleDependencies g).links, l.source ≠ l.target) ∧
    ((filterModuleDependencies g).nodes.map GNode.id).Nodup ∧
    (∀ M, M ∈ (filterModuleDependencies g).nodes.map GNode.id ↔
      ∃ n, n ∈ g.nodes ∧ jsTruthy n.path = true ∧ firstSeg (n.path.getD "") = M) := by
  refine ⟨fun i M => modOf_iff hN i M, ?_, ?_, ?_, ?_⟩
  · have h := agg_fold (moduleMapOf g.nodes) A B hAB g.links [] (by simp)
    simp only [filterModuleDependencies]
    simpa [pairLinks] using h
  · intro l hl
    simp only [filterModuleDependencies] at hl
    exact agg_links_forall (P := fun l => l.source ≠ l.target)
      (fun _ _ h => h) (fun _ h => h) g.links [] (by simp) l hl
  · simp only [filterModuleDependencies]
    rw [map_id_of_mk]
    exact dedupF_nodup _
  · intro M
    simp only [filterModuleDependencies]
    rw [map_id_of_mk]
    rw [dedupF_mem ((moduleMapOf g.nodes).map (·.2)) M,
      mem_values_iff (moduleMapOf_keys_nodup g.nodes) M]
    constructor
    · intro ⟨k, hk⟩
      obtain ⟨n, hn, _, htr, hseg⟩ := (modOf_iff hN k M).mp hk
      exact ⟨n, hn, htr, hseg⟩
    · intro ⟨n, hn, htr, hseg⟩
      exact ⟨n.id, (modOf_iff hN n.id M).mpr ⟨n, hn, rfl, htr, hseg⟩⟩

/-- C4 witness: the aggregation conclusion applied to a concrete graph with
two cross-module links from module A to module B. -/
theorem claim4_witness :
    (c4graph.nodes.map GNode.id).Nodup ∧
    pairLinks (filterModuleDependencies c4graph).links "A" "B" =
      (if cntLinks (moduleMapOf c4graph.nodes) c4graph.links "A" "B" = 0 then []
       else [{ source := "A", target := "B", type := "contains",
               value := some (cntLinks (moduleMapOf c4graph.nodes) c4graph.links "A" "B") }]) ∧
    cntLinks (moduleMapOf c4graph.nodes) c4graph.links "A" "B" = 2 :=
  ⟨by decide,
   (claim4_module_aggregation c4graph (by decide) "A" "B" (by decide)).2.1,
   by decide⟩

/-- C5 counterexample: the claim fails for single-segment paths.  The graph
holds one function node with the non-empty path main and a type other than
module, yet its id occurs nowhere in the hierarchical view: the leaf-attach
step looks up the substring before the last separator, which for a
separator-free path is the empty string, and no module with an empty key
exists. -/
theorem claim5_cex :
    ∃ n ∈ c5graph.nodes, n.path.getD "" ≠ "" ∧ n.type ≠ "module" ∧
      occursH (convertToHierarchical c5graph) n.id = false := by
  decide

/-- C5 (amended): for a node whose path is a well-formed join of at least two
nonempty colon-free segments and whose type is not module, the builder
creates a module entry for every nonempty prefix join of the path, and the
hierarchical view has a root module tree node whose path is the first
segment, a proper prefix of the node's path, with the node occurring as a
descendant of that root. -/
theorem claim5_hierarchical_attach
    (g : GraphData) (n : GNode) (hn : n ∈ g.nodes)
    (segs : List String)
    (hwf : ∀ s ∈ segs, s.data ≠ [] ∧ ':' ∉ s.data)
    (hlen : 2 ≤ segs.length)
    (hpath : n.path = some (pathJoin segs))
    (htype : n.type ≠ "module") :
    (∀ i, 1 ≤ i → i ≤ segs.length →
      mmHas (buildModules g) (pathJoin (segs.take i)) = true) ∧
    ∃ t ∈ (convertToHierarchical g).children,
      t.type = "module" ∧ t.path = some (segs.headD "") ∧
      (segs.headD "").data ≠ (pathJoin segs).data ∧
      (segs.headD "").data <+: (pathJoin segs).data ∧
      occursT t n.id = true := by
  cases segs with
  | nil => simp at hlen
  | cons s0 rest =>
    have hr : rest ≠ [] := by
      intro h
      rw [h] at hlen
      simp at hlen
    have hrlen : 1 ≤ rest.length := List.length_pos.mpr hr
    obtain ⟨l1, l2, hsplit⟩ := List.append_of_mem hn
    have hbm : buildModules g
        = l2.foldl processNode (processNode (l1.foldl processNode []) n) := by
      rw [buildModules, hsplit, List.foldl_append, List.foldl_cons]
    obtain ⟨h01, h02, _, _⟩ := processNode_fold_pres l1 []
      (by simp [entKeys]) (by intro e he; simp at he)
    obtain ⟨hatt1, hatt2⟩ :=
      processNode_attach (l1.foldl processNode []) n s0 rest hwf hr hpath htype
    obtain ⟨hn1, hn2⟩ := processNode_pres (l1.foldl processNode []) n h01 h02
    obtain ⟨hf1, hf2, hf3, hf4⟩ :=
      processNode_fold_pres l2 (processNode (l1.foldl processNode []) n) hn1 hn2
    have hndM : (entKeys (buildModules g)).Nodup := by rw [hbm]; exact hf1
    have hinvM : INVR (buildModules g) := by rw [hbm]; exact hf2
    have hhasM : ∀ i, 1 ≤ i → i ≤ (s0 :: rest).length →
        mmHas (buildModules g) (pathJoin ((s0 :: rest).take i)) = true := by
      intro i h1 h2
      rw [hbm]
      exact hf3 _ (hatt2 i h1 h2)
    have hleafM : MChild.leaf n
        ∈ mmChildren (buildModules g) (pathJoin ((s0 :: rest).dropLast)) := by
      rw [hbm]
      exact hf4 _ _ hatt1
    refine ⟨hhasM, ?_⟩
    have hhs0 : mmHas (buildModules g) (pathJoin ((s0 :: rest).take 1)) = true :=
      hhasM 1 le_rfl (by simp)
    have htake1 : (s0 :: rest).take 1 = [s0] := by simp
    rw [htake1, pathJoin_single] at hhs0
    obtain ⟨e0, he0, he0k⟩ := mmHas_exists.mp hhs0
    have hroot : e0 ∈ (buildModules g).filter
        (fun e => (splitSep e.key.data).length == 1) := by
      apply List.mem_filter.mpr
      refine ⟨he0, ?_⟩
      rw [he0k, splitSep_nosep _ (hwf s0 (by simp)).2]
      rfl
    refine ⟨matTree (buildModules g) ((buildModules g).length + 1) e0,
      ?_, ?_, ?_, ?_, ?_, ?_⟩
    · show matTree (buildModules g) ((buildModules g).length + 1) e0
        ∈ (convertToHierarchical g).children
      simp only [convertToHierarchical]
      exact List.mem_map_of_mem _ hroot
    · rfl
    · show some e0.key = some ((s0 :: rest).headD "")
      rw [he0k]
      rfl
    · intro hcon
      have hlencon := congrArg List.length hcon
      rw [pathJoin_data_cons s0 rest hr] at hlencon
      simp only [List.headD_cons, List.length_append, List.length_cons] at hlencon
      omega
    · rw [pathJoin_data_cons s0 rest hr]
      show s0.data <+: s0.data ++ ':' :: ':' :: joinSep (rest.map String.data)
      exact List.prefix_append _ _
    · have hdlwf : ∀ s ∈ (s0 :: rest).dropLast, s.data ≠ [] ∧ ':' ∉ s.data :=
        fun s hs => hwf s (List.mem_of_mem_dropLast hs)
      have hdlne : (s0 :: rest).dropLast ≠ [] := by
        rw [List.dropLast_cons_of_ne_nil hr]
        simp
      have hdt : (s0 :: rest).dropLast = (s0 :: rest).take ((s0 :: rest).length - 1) :=
        List.dropLast_eq_take _
      have hdlhas : mmHas (buildModules g) (pathJoin ((s0 :: rest).dropLast)) = true := by
        rw [hdt]
        exact hhasM _ (by simpa using hrlen) (Nat.sub_le _ _)
      have hchain := chain_of_INVR (buildModules g) hndM hinvM ((s0 :: rest).dropLast)
        hdlwf hdlne hdlhas
      have hstart : ((s0 :: rest).dropLast).take 1 = [s0] := by
        rw [List.dropLast_cons_of_ne_nil hr]
        rfl
      rw [hstart, pathJoin_single] at hchain
      have hchain2 : RefChain (buildModules g) e0.key (pathJoin ((s0 :: rest).dropLast))
          (((s0 :: rest).dropLast).length - 1) := by
        rw [he0k]
        exact hchain
      have hcount := prefix_count (buildModules g) (s0 :: rest) hhasM
      have hfuel : ((s0 :: rest).dropLast).length - 1 < (buildModules g).length + 1 := by
        have h1 : ((s0 :: rest).dropLast).length = rest.length := by
          rw [List.dropLast_cons_of_ne_nil hr]
          simp only [List.length_cons, List.length_dropLast]
          omega
        have h2 : rest.length + 1 ≤ (buildModules g).length := by
          simpa using hcount
        rw [h1]
        omega
      exact occurs_of_chain (buildModules g) hndM n _ _ hfuel e0 he0 _ hchain2 hleafM

/-- C5 witness: the amended theorem applied to a graph with one function node
on the two-segment path m::f. -/
theorem claim5_witness :
    (∀ i, 1 ≤ i → i ≤ (["m", "f"] : List String).length →
      mmHas (buildModules c5graphW) (pathJoin ((["m", "f"] : List String).take i)) = true) ∧
    ∃ t ∈ (convertToHierarchical c5graphW).children,
      t.type = "module" ∧ t.path = some ((["m", "f"] : List String).headD "") ∧
      ((["m", "f"] : List String).headD "").data ≠ (pathJoin ["m", "f"]).data ∧
      ((["m", "f"] : List String).headD "").data <+: (pathJoin ["m", "f"]).data ∧
      occursT t c5nodeW.id = true :=
  claim5_hierarchical_attach c5graphW c5nodeW
    (by decide) ["m", "f"] (by decide) (by decide) (by decide) (by decide)

end VisCode
